import Mathlib

/-!
# devmem3: physical-memory peek/poke and hex dump

A shallow embedding of `src/devmem/devmem3.c` (`print_buffer` and `main`).

* C unsigned arithmetic (`uint`, `ulong`) is `Nat` arithmetic reduced modulo the type's range
  at the places where the source can wrap.
* Memory is a byte-addressed map `Nat → Nat`; the byte at an address is the stored number
  modulo 256. The same type models the stack buffer `lb` of `print_buffer`, indexed by byte
  offset inside the union, with the declared array lengths checked at every indexed access.
* The two facts about the host the source depends on are parameters (`Host`): whether
  `__LP64__` is defined, and the byte order.
* Loops that may spin for ever take fuel; undefined behaviour of the C program
  (indexing past the end of an array of `lb`, dividing by zero) is the outcome `undefined`.
-/

namespace Devmem

/-! ## Host parameters and constants -/

/-- Compile-time facts about the host: `lp64` says `__LP64__` is defined (so `long`, `ulong` and
pointers are 8 bytes, otherwise 4), `bigEndian` is the byte order of multi-byte accesses. -/
structure Host where
  lp64 : Bool
  bigEndian : Bool
deriving DecidableEq, Repr

/-- Lines 42-46: `MEM_SUPPORT_64BIT_DATA` is 1 exactly when `__LP64__` is defined. -/
def MEM_SUPPORT_64BIT_DATA (h : Host) : Bool := h.lp64

/-- Line 51: `#define MAP_SIZE 4096UL`. -/
def MAP_SIZE : Nat := 4096

/-- Line 52: `#define MAP_MASK (MAP_SIZE - 1)`. -/
def MAP_MASK : Nat := MAP_SIZE - 1

/-- Line 54: `#define DISP_LINE_LEN 16`. -/
def DISP_LINE_LEN : Nat := 16

/-- Line 55: `#define MAX_LINE_LENGTH_BYTES (64)`. -/
def MAX_LINE_LENGTH_BYTES : Nat := 64

/-- Line 56: `#define DEFAULT_LINE_LENGTH_BYTES (16)`. -/
def DEFAULT_LINE_LENGTH_BYTES : Nat := 16

/-- Number of values of the 32-bit type `uint`. -/
def UINT_RANGE : Nat := 2 ^ 32

/-- The value `sizeof(unsigned long)`. -/
def ulongBytes (h : Host) : Nat := if h.lp64 then 8 else 4

/-- Number of values of the type `unsigned long`. -/
def ULONG_RANGE (h : Host) : Nat := 2 ^ (8 * ulongBytes h)

/-- Declared lengths of the four arrays of `union linebuf` (lines 63-66). -/
def UQ_LEN : Nat := MAX_LINE_LENGTH_BYTES / 8 + 1

/-- Length of `lb.ui`. -/
def UI_LEN : Nat := MAX_LINE_LENGTH_BYTES / 4 + 1

/-- Length of `lb.us`. -/
def US_LEN : Nat := MAX_LINE_LENGTH_BYTES / 2 + 1

/-- Length of `lb.uc`. -/
def UC_LEN : Nat := MAX_LINE_LENGTH_BYTES / 1 + 1

/-! ## Outcomes -/

/-- Outcome of running a piece of the program. -/
inductive Run (α : Type) where
  | done (a : α)
  | undefined
  | outOfFuel
deriving DecidableEq, Repr

/-- Sequencing: the second step runs on the result of the first, and a first step that is
`undefined` or `outOfFuel` is the outcome of the whole. -/
def Run.bind {α β : Type} : Run α → (α → Run β) → Run β
  | .done a, f => f a
  | .undefined, _ => .undefined
  | .outOfFuel, _ => .outOfFuel

/-! ## Byte-addressed memory -/

/-- Byte-addressed memory. -/
abbrev Mem := Nat → Nat

/-- The byte stored at address `a`. -/
def readByte (m : Mem) (a : Nat) : Nat := m a % 256

/-- The `n` bytes at addresses `a, a+1, ..., a+n-1`, in address order. -/
def bytesAt (m : Mem) (a : Nat) : Nat → List Nat
  | 0 => []
  | n + 1 => readByte m a :: bytesAt m (a + 1) n

/-- Value of a little-endian byte string. -/
def fromBytesLE : List Nat → Nat
  | [] => 0
  | b :: bs => b + 256 * fromBytesLE bs

/-- The low `n` bytes of `v`, least significant first (this is also the truncation of `v`
to an `n`-byte unsigned type). -/
def toBytesLE : Nat → Nat → List Nat
  | 0, _ => []
  | n + 1, v => v % 256 :: toBytesLE n (v / 256)

/-- Value of an object representation on host `h`. -/
def decode (h : Host) (bs : List Nat) : Nat :=
  if h.bigEndian then fromBytesLE bs.reverse else fromBytesLE bs

/-- Object representation, on host `h`, of `v` converted to an `n`-byte unsigned type. -/
def encode (h : Host) (n v : Nat) : List Nat :=
  if h.bigEndian then (toBytesLE n v).reverse else toBytesLE n v

/-- One load of an `n`-byte unsigned value at address `a`. -/
def load (h : Host) (m : Mem) (a n : Nat) : Nat := decode h (bytesAt m a n)

/-- Memory after the bytes `bs` are written at `a, a+1, ...`. -/
def writeBytes (m : Mem) (a : Nat) (bs : List Nat) : Mem :=
  fun k => if a ≤ k ∧ k < a + bs.length then bs.getD (k - a) 0 else m k

/-- One store of `v`, converted to an `n`-byte unsigned type, at address `a`. -/
def store (h : Host) (m : Mem) (a n v : Nat) : Mem := writeBytes m a (encode h n v)

/-! ## Formatting -/

/-- Upper-case hexadecimal digit of `d < 16`. -/
def hexDigit (d : Nat) : Char :=
  if d < 10 then Char.ofNat (48 + d) else Char.ofNat (55 + d)

/-- Shortest upper-case hexadecimal numeral of `x` (`%lX`); `fuel` bounds the number of
digits after the first, and 16 digits are enough for any `unsigned long`. -/
def hexDigits : Nat → Nat → List Char
  | 0, x => [hexDigit (x % 16)]
  | fuel + 1, x => if x < 16 then [hexDigit x] else hexDigits fuel (x / 16) ++ [hexDigit (x % 16)]

/-- The conversion `%0*lX` of `printf`: the shortest numeral, left-padded with `0` to the
field width `w`. -/
def fmtHex (w x : Nat) : List Char :=
  let s := hexDigits 16 x
  List.replicate (w - s.length) '0' ++ s

/-- Value of a hexadecimal digit character (0 for any other character). -/
def hexDigitVal (c : Char) : Nat :=
  if 48 ≤ c.toNat ∧ c.toNat ≤ 57 then c.toNat - 48
  else if 65 ≤ c.toNat ∧ c.toNat ≤ 70 then c.toNat - 55
  else 0

/-- Value of a hexadecimal numeral, most significant digit first. -/
def hexVal (s : List Char) : Nat := s.foldl (fun acc c => 16 * acc + hexDigitVal c) 0

/-- The C-locale `isprint` on a byte. -/
def isprint (c : Nat) : Bool := 0x20 ≤ c && c ≤ 0x7E

/-- Line 109-110: the byte left in `lb.uc[i]` by the ASCII loop. -/
def asciiByte (c : Nat) : Nat := if !isprint c || c ≥ 0x80 then 46 else c

/-! ## `print_buffer` -/

/-- One element of a dump line: the volatile load that produced it (address and size in
bytes) and the text `printf(" %0*lX", width * 2, x)` wrote for it. -/
structure Elem where
  loadAddr : Nat
  loadSize : Nat
  text : List Char
deriving DecidableEq, Repr

/-- One iteration of the `while (count)` loop: the two numbers of the header printed at
line 78, the elements, the output of the padding loop (lines 100-105) and the string printed
by `%s` at line 113. -/
structure Line where
  phyaddr : Nat
  addr : Nat
  elems : List Elem
  pad : List Char
  ascii : List Char
deriving DecidableEq, Repr

/-- Lines 86-93: the load of one element and its copy into `lb`; returns the value `x`,
the size of the load and the new `lb`. -/
def loadElem (h : Host) (mem : Mem) (width i data : Nat) (lb : Mem) : Run (Nat × Nat × Mem) :=
  if width = 4 then
    if i < UI_LEN then .done (load h mem data 4, 4, store h lb (4 * i) 4 (load h mem data 4))
    else .undefined
  else if MEM_SUPPORT_64BIT_DATA h ∧ width = 8 then
    if i < UQ_LEN then .done (load h mem data 8, 8, store h lb (8 * i) 8 (load h mem data 8))
    else .undefined
  else if width = 2 then
    if i < US_LEN then .done (load h mem data 2, 2, store h lb (2 * i) 2 (load h mem data 2))
    else .undefined
  else
    if i < UC_LEN then .done (load h mem data 1, 1, store h lb i 1 (load h mem data 1))
    else .undefined

/-- Lines 85-98: `for (i = 0; i < thislinelen; i++)`, with `n` iterations left, the next
index `i`, the pointer `data` and the buffer `lb`. Returns the elements, the final `data`
and the final `lb`. -/
def elemLoop (h : Host) (mem : Mem) (width : Nat) :
    Nat → Nat → Nat → Mem → Run (List Elem × Nat × Mem)
  | 0, _, data, lb => .done ([], data, lb)
  | n + 1, i, data, lb =>
    (loadElem h mem width i data lb).bind fun (x, size, lb1) =>
      (elemLoop h mem width n (i + 1) (data + width) lb1).bind fun (es, data2, lb2) =>
        .done (⟨data, size, ' ' :: fmtHex (width * 2 % UINT_RANGE) x⟩ :: es, data2, lb2)

/-- Lines 102-103: `for (i=0; i<width*2+1; i++) puts(" ");`. Each `puts(" ")` writes the
string followed by a newline. -/
def padFill (width : Nat) : List Char :=
  (List.replicate ((width * 2 + 1) % UINT_RANGE) [' ', '\n']).flatten

/-- Lines 100-105: `while (thislinelen < linelen) { ...; linelen--; }` by recursion on
`linelen`; returns the output and the final `linelen`. -/
def padLoop (width thislinelen : Nat) : Nat → List Char × Nat
  | 0 => ([], 0)
  | l + 1 =>
    if thislinelen < l + 1 then
      (padFill width ++ (padLoop width thislinelen l).1, (padLoop width thislinelen l).2)
    else ([], l + 1)

/-- Lines 108-111: `for (i = 0; i < thislinelen * width; i++)` with `n` iterations left and
next index `i`. -/
def asciiLoop : Nat → Nat → Mem → Run Mem
  | 0, _, lb => .done lb
  | n + 1, i, lb =>
    if i < UC_LEN then
      asciiLoop n (i + 1)
        (if !isprint (readByte lb i) || readByte lb i ≥ 0x80 then writeBytes lb i [46] else lb)
    else .undefined

/-- The characters `%s` prints for `lb.uc`: the bytes before the first NUL. -/
def cstr (lb : Mem) : List Char :=
  (((List.range UC_LEN).map (readByte lb)).takeWhile (fun b => b ≠ 0)).map Char.ofNat

/-- Lines 76-119: the `while (count)` loop. -/
def printLoop (h : Host) (mem : Mem) (width : Nat) :
    Nat → Nat → Nat → Nat → Nat → Nat → Mem → Run (List Line)
  | fuel, addr, phyaddr, data, count, linelen, lb =>
    if count = 0 then .done []
    else
      match fuel with
      | 0 => .outOfFuel
      | fuel + 1 =>
        let thislinelen := if count < linelen then count else linelen
        (elemLoop h mem width thislinelen 0 data lb).bind fun (es, data1, lb1) =>
          let p := padLoop width thislinelen linelen
          (asciiLoop (thislinelen * width % UINT_RANGE) 0 lb1).bind fun lb2 =>
            if thislinelen * width % UINT_RANGE < UC_LEN then
              let lb3 := writeBytes lb2 (thislinelen * width % UINT_RANGE) [0]
              (printLoop h mem width fuel
                  ((addr + thislinelen * width % UINT_RANGE) % ULONG_RANGE h)
                  ((phyaddr + thislinelen * width % UINT_RANGE) % ULONG_RANGE h)
                  data1 (count - thislinelen) p.2 lb3).bind fun ls =>
                .done (⟨phyaddr, addr, es, p.1, cstr lb3⟩ :: ls)
            else .undefined

/-- Lines 71-74: the line length the loop starts with; `undefined` when the default is
computed by a division by zero. -/
def clampLinelen (width linelen : Nat) : Run Nat :=
  let linelen1 :=
    if linelen * width % UINT_RANGE > MAX_LINE_LENGTH_BYTES then MAX_LINE_LENGTH_BYTES / width
    else linelen
  if linelen1 < 1 then
    if width = 0 then .undefined else .done (DEFAULT_LINE_LENGTH_BYTES / width)
  else .done linelen1

/-- The function `print_buffer` (lines 58-122); `lb0` is the uninitialised content of the
stack buffer `lb`, and the result is the list of lines written to standard output. -/
def print_buffer (h : Host) (mem lb0 : Mem) (fuel addr phyaddr data width count linelen : Nat) :
    Run (List Line) :=
  (clampLinelen width linelen).bind fun l =>
    printLoop h mem width fuel addr phyaddr data count l lb0

/-- The text of one line as written to standard output (lines 78, 95, 103 and 113). -/
def renderLine (l : Line) : List Char :=
  "0x".toList ++ fmtHex 8 l.phyaddr ++ " (0x".toList ++ fmtHex 8 l.addr ++ "):".toList
    ++ (l.elems.map Elem.text).flatten ++ l.pad ++ "    ".toList ++ l.ascii ++ ['\n']

/-! ## `main` -/

/-- The largest value of the 32-bit type `int`. -/
def INT_MAX : Int := 2 ^ 31 - 1

/-- Conversion of an unsigned value to the 32-bit type `int` (two's complement). -/
def toInt32 (v : Nat) : Int :=
  if v % 2 ^ 32 < 2 ^ 31 then (v % 2 ^ 32 : Nat) else ((v % 2 ^ 32 : Nat) : Int) - 2 ^ 32

/-- Conversion of an `int` to the 32-bit type `uint`. -/
def toUInt32 (i : Int) : Nat := (i % 2 ^ 32).toNat

/-- The command line after `strtoul`: `target` is `strtoul(argv[1], 0, 0)`; `rest` is present
when `argc > 2` and holds the character `argv[2][0]` and, when `argc > 3`,
`strtoul(argv[3], 0, 0)`. -/
structure Args where
  target : Nat
  rest : Option (Char × Option Nat)
deriving DecidableEq, Repr

/-- Behaviour of the operating system in one run: whether `open("/dev/mem")` succeeds, the
address `mmap` returns (`none` for `MAP_FAILED`), and whether `munmap` succeeds. -/
structure Provider where
  openOk : Bool
  mapBase : Option Nat
  munmapOk : Bool
deriving DecidableEq, Repr

/-- What a run of `main` does, in program order: system calls, accesses through `virt_addr`
and output. `store` carries the bytes written, in address order. -/
inductive Event where
  | usage
  | openMem
  | printOpened
  | mmap (offset : Nat)
  | printMapped (map_base : Nat)
  | dump (map_base virt_addr : Nat) (lenth : Int) (lines : List Line)
  | load (addr size : Nat)
  | store (addr : Nat) (bytes : List Nat)
  | illegalType (access_type : Char)
  | printRead (target virt_addr read_result : Nat)
  | printWrite (target virt_addr writeval read_result : Nat)
  | munmap (map_base : Nat)
  | close
  | fatal
deriving DecidableEq, Repr

/-- Line 151: the offset `target & ~MAP_MASK` passed to `mmap` (`~MAP_MASK` is an
`unsigned long`). -/
def windowBase (h : Host) (target : Nat) : Nat := target &&& (ULONG_RANGE h - 1 - MAP_MASK)

/-- Line 154: `virt_addr = map_base + (target & MAP_MASK)`. -/
def virtAddr (map_base target : Nat) : Nat := map_base + (target &&& MAP_MASK)

/-- Lines 156-162: the value of `lenth` passed to `print_buffer`; `off` is
`virt_addr - map_base` and `arg` is `strtoul(argv[3], 0, 0)` when `argc > 3`. The signed
addition `lenth+3` overflowing is undefined. -/
def dumpLenth (off : Nat) (arg : Option Nat) : Run Int :=
  match arg with
  | none => .done 64
  | some v =>
    if toInt32 v + 3 > INT_MAX then .undefined
    else
      let lenth := Int.tdiv (toInt32 v + 3) 4 * 4
      if lenth > 1024 - Int.tdiv (off : Int) 4 then .done (1024 - Int.tdiv (off : Int) 4)
      else .done lenth

/-- Size in bytes of the access `main` makes for an access type (lines 174-182); `none` is
the `default:` label. -/
def accessSize (h : Host) (access_type : Char) : Option Nat :=
  if access_type = 'b' then some 1
  else if access_type = 'h' then some 2
  else if access_type = 'w' then some (ulongBytes h)
  else none

/-- Lines 211-214: the label `exit`. -/
def exitPath (P : Provider) (map_base : Nat) (pre : List Event) : Run (List Event × Nat) :=
  if P.munmapOk then .done (pre ++ [.munmap map_base, .close], 0)
  else .done (pre ++ [.munmap map_base, .fatal], 1)

/-- The function `main` (lines 125-215): the events of the run and the exit status.
`none` for the arguments is `argc < 2`. -/
def main (h : Host) (P : Provider) (mem lb0 : Mem) (fuel : Nat) :
    Option Args → Run (List Event × Nat)
  | none => .done ([.usage], 1)
  | some a =>
    let target := a.target % ULONG_RANGE h
    let access_type : Char :=
      match a.rest with
      | some (c, _) => c.toLower
      | none => 'w'
    if P.openOk = false then .done ([.openMem, .fatal], 1)
    else
      match P.mapBase with
      | none => .done ([.openMem, .printOpened, .mmap (windowBase h target), .fatal], 1)
      | some map_base =>
        let pre : List Event := [.openMem, .printOpened, .mmap (windowBase h target)]
        let virt_addr := virtAddr map_base target
        if access_type = 'd' then
          (dumpLenth (virt_addr - map_base) (a.rest.bind Prod.snd)).bind fun lenth =>
            (print_buffer h mem lb0 fuel (virt_addr % ULONG_RANGE h) target virt_addr 4
                (toUInt32 lenth) (DISP_LINE_LEN / 4)).bind fun lines =>
              exitPath P map_base (pre ++ [.dump map_base virt_addr lenth lines])
        else
          match accessSize h access_type with
          | none => .done (pre ++ [.printMapped map_base, .illegalType access_type], 2)
          | some size =>
            let read_result := load h mem virt_addr size
            let pre1 := pre ++ [.printMapped map_base, .load virt_addr size,
              .printRead target virt_addr read_result]
            match a.rest.bind Prod.snd with
            | none => exitPath P map_base pre1
            | some v =>
              let writeval := v % ULONG_RANGE h
              let mem1 := store h mem virt_addr size writeval
              exitPath P map_base (pre1 ++ [.store virt_addr (encode h size writeval),
                .load virt_addr size,
                .printWrite target virt_addr writeval (load h mem1 virt_addr size)])

/-! ## Definitions used to state the results -/

/-- The numeral of exactly `n` upper-case hexadecimal digits for `x`, most significant
digit first. -/
def hexFixed : Nat → Nat → List Char
  | 0, _ => []
  | n + 1, x => hexFixed n (x / 16) ++ [hexDigit (x % 16)]

/-- The widths `print_buffer` has a typed access for on host `h`. -/
def validWidth (h : Host) (width : Nat) : Prop :=
  width = 1 ∨ width = 2 ∨ width = 4 ∨ (width = 8 ∧ h.lp64 = true)

/-- The elements of a run of `n` consecutive typed loads starting at `data`. -/
def elemsSpec (h : Host) (mem : Mem) (width data n : Nat) : List Elem :=
  (List.range n).map fun k =>
    ⟨data + k * width, width, ' ' :: fmtHex (width * 2 % UINT_RANGE) (load h mem (data + k * width) width)⟩

/-- The character the claim prescribes for a byte of the ASCII strip. -/
def asciiChar (b : Nat) : Char := if 0x20 ≤ b ∧ b ≤ 0x7E then Char.ofNat b else '.'

/-- The bytes a line read, in memory order: the bytes of its loads, one load after another. -/
def lineBytes (mem : Mem) (l : Line) : List Nat :=
  (l.elems.map fun e => bytesAt mem e.loadAddr e.loadSize).flatten

/-- The loads of the dumps in a trace, in program order: address and size of each. -/
def dumpLoads : List Event → List (Nat × Nat)
  | [] => []
  | .dump _ _ _ lines :: tr =>
    ((lines.map Line.elems).flatten.map fun e => (e.loadAddr, e.loadSize)) ++ dumpLoads tr
  | _ :: tr => dumpLoads tr

/-! ## Memory lemmas -/

theorem Run.bind_done {α β : Type} (a : α) (f : α → Run β) : (Run.done a).bind f = f a := rfl

theorem Run.bind_eq_done {α β : Type} {r : Run α} {f : α → Run β} {b : β}
    (hb : r.bind f = .done b) : ∃ a, r = .done a ∧ f a = .done b := by
  cases r with
  | done a => exact ⟨a, rfl, hb⟩
  | undefined => simp [Run.bind] at hb
  | outOfFuel => simp [Run.bind] at hb

theorem readByte_lt (m : Mem) (a : Nat) : readByte m a < 256 := Nat.mod_lt _ (by norm_num)

theorem bytesAt_length (m : Mem) (a n : Nat) : (bytesAt m a n).length = n := by
  induction n generalizing a with
  | zero => rfl
  | succ n ih => simp [bytesAt, ih]

theorem bytesAt_lt (m : Mem) (a n : Nat) : ∀ b ∈ bytesAt m a n, b < 256 := by
  induction n generalizing a with
  | zero => simp [bytesAt]
  | succ n ih =>
    intro b hb
    simp only [bytesAt, List.mem_cons] at hb
    rcases hb with rfl | hb
    · exact readByte_lt m a
    · exact ih _ b hb

theorem bytesAt_eq_map (m : Mem) (a n : Nat) :
    bytesAt m a n = (List.range n).map fun k => readByte m (a + k) := by
  induction n generalizing a with
  | zero => rfl
  | succ n ih =>
    rw [bytesAt, ih, List.range_succ_eq_map, List.map_cons, List.map_map]
    simp only [Nat.add_zero, List.cons.injEq, true_and]
    apply List.map_congr_left
    intro k _
    simp only [Function.comp_apply]
    congr 1
    omega

theorem bytesAt_add (m : Mem) (a n k : Nat) :
    bytesAt m a (n + k) = bytesAt m a n ++ bytesAt m (a + n) k := by
  induction n generalizing a with
  | zero => simp [bytesAt]
  | succ n ih =>
    rw [Nat.succ_add, bytesAt, bytesAt, ih, List.cons_append]
    congr 3
    omega

theorem toBytesLE_length (n v : Nat) : (toBytesLE n v).length = n := by
  induction n generalizing v with
  | zero => rfl
  | succ n ih => simp [toBytesLE, ih]

theorem toBytesLE_lt (n v : Nat) : ∀ b ∈ toBytesLE n v, b < 256 := by
  induction n generalizing v with
  | zero => simp [toBytesLE]
  | succ n ih =>
    intro b hb
    simp only [toBytesLE, List.mem_cons] at hb
    rcases hb with rfl | hb
    · exact Nat.mod_lt _ (by norm_num)
    · exact ih _ b hb

theorem toBytesLE_fromBytesLE (bs : List Nat) (hbs : ∀ b ∈ bs, b < 256) :
    toBytesLE bs.length (fromBytesLE bs) = bs := by
  induction bs with
  | nil => rfl
  | cons b bs ih =>
    have hb : b < 256 := hbs b (List.mem_cons_self _ _)
    have ht : ∀ c ∈ bs, c < 256 := fun c hc => hbs c (List.mem_cons_of_mem _ hc)
    simp only [List.length_cons, fromBytesLE, toBytesLE]
    have h1 : (b + 256 * fromBytesLE bs) % 256 = b := by omega
    have h2 : (b + 256 * fromBytesLE bs) / 256 = fromBytesLE bs := by omega
    rw [h1, h2, ih ht]

theorem fromBytesLE_toBytesLE (n v : Nat) : fromBytesLE (toBytesLE n v) = v % 256 ^ n := by
  induction n generalizing v with
  | zero => simp [toBytesLE, fromBytesLE, Nat.mod_one]
  | succ n ih =>
    simp only [toBytesLE, fromBytesLE, ih]
    rw [pow_succ, Nat.mul_comm (256 ^ n) 256, Nat.mod_mul]

theorem fromBytesLE_lt (bs : List Nat) (hbs : ∀ b ∈ bs, b < 256) :
    fromBytesLE bs < 256 ^ bs.length := by
  induction bs with
  | nil => simp [fromBytesLE]
  | cons b bs ih =>
    have hb : b < 256 := hbs b (List.mem_cons_self _ _)
    have ht := ih fun c hc => hbs c (List.mem_cons_of_mem _ hc)
    simp only [fromBytesLE, List.length_cons, pow_succ]
    omega

theorem encode_length (h : Host) (n v : Nat) : (encode h n v).length = n := by
  unfold encode
  split <;> simp [toBytesLE_length]

theorem encode_lt (h : Host) (n v : Nat) : ∀ b ∈ encode h n v, b < 256 := by
  intro b hb
  unfold encode at hb
  split at hb
  · exact toBytesLE_lt n v b (List.mem_reverse.mp hb)
  · exact toBytesLE_lt n v b hb

theorem encode_decode (h : Host) (bs : List Nat) (hbs : ∀ b ∈ bs, b < 256) :
    encode h bs.length (decode h bs) = bs := by
  unfold encode decode
  split
  · have := toBytesLE_fromBytesLE bs.reverse (fun b hb => hbs b (List.mem_reverse.mp hb))
    rw [List.length_reverse] at this
    rw [this, List.reverse_reverse]
  · exact toBytesLE_fromBytesLE bs hbs

theorem decode_encode (h : Host) (n v : Nat) : decode h (encode h n v) = v % 256 ^ n := by
  unfold encode decode
  split <;> simp [fromBytesLE_toBytesLE]

theorem decode_lt (h : Host) (bs : List Nat) (hbs : ∀ b ∈ bs, b < 256) :
    decode h bs < 256 ^ bs.length := by
  unfold decode
  split
  · have := fromBytesLE_lt bs.reverse (fun b hb => hbs b (List.mem_reverse.mp hb))
    rwa [List.length_reverse] at this
  · exact fromBytesLE_lt bs hbs

theorem load_lt (h : Host) (m : Mem) (a n : Nat) : load h m a n < 256 ^ n := by
  have := decode_lt h (bytesAt m a n) (bytesAt_lt m a n)
  rwa [bytesAt_length] at this

theorem readByte_writeBytes (m : Mem) (a : Nat) (bs : List Nat) (k : Nat) :
    readByte (writeBytes m a bs) k =
      if a ≤ k ∧ k < a + bs.length then bs.getD (k - a) 0 % 256 else readByte m k := by
  unfold readByte writeBytes
  split <;> rfl

theorem bytesAt_writeBytes (m : Mem) (a : Nat) (bs : List Nat) (hbs : ∀ b ∈ bs, b < 256) :
    bytesAt (writeBytes m a bs) a bs.length = bs := by
  rw [bytesAt_eq_map]
  apply List.ext_getElem
  · simp
  · intro k h1 h2
    simp only [List.getElem_map, List.getElem_range, readByte_writeBytes]
    have hk : a ≤ a + k ∧ a + k < a + bs.length := ⟨by omega, by omega⟩
    rw [if_pos hk, Nat.add_sub_cancel_left, List.getD_eq_getElem _ _ h2]
    exact Nat.mod_eq_of_lt (hbs _ (List.getElem_mem _))

theorem load_store (h : Host) (m : Mem) (a n v : Nat) :
    load h (store h m a n v) a n = v % 256 ^ n := by
  unfold load store
  have := bytesAt_writeBytes m a (encode h n v) (encode_lt h n v)
  rw [encode_length] at this
  rw [this, decode_encode]

theorem bytesAt_store_load (h : Host) (mem lb : Mem) (data off n : Nat) :
    bytesAt (store h lb off n (load h mem data n)) off n = bytesAt mem data n := by
  unfold store load
  have he := encode_decode h (bytesAt mem data n) (bytesAt_lt mem data n)
  rw [bytesAt_length] at he
  rw [he]
  have := bytesAt_writeBytes lb off (bytesAt mem data n) (bytesAt_lt mem data n)
  rwa [bytesAt_length] at this

theorem readByte_store_load (h : Host) (mem lb : Mem) (data off n k : Nat) :
    readByte (store h lb off n (load h mem data n)) k =
      if off ≤ k ∧ k < off + n then readByte mem (data + (k - off)) else readByte lb k := by
  unfold store load
  have he := encode_decode h (bytesAt mem data n) (bytesAt_lt mem data n)
  rw [bytesAt_length] at he
  rw [he, readByte_writeBytes, bytesAt_length]
  split
  · next hk =>
    rw [bytesAt_eq_map, List.getD_eq_getElem _ _ (by simp; omega)]
    simp only [List.getElem_map, List.getElem_range]
    exact Nat.mod_eq_of_lt (readByte_lt _ _)
  · rfl

/-! ## Formatting lemmas -/

theorem hexDigitVal_hexDigit (d : Nat) (hd : d < 16) : hexDigitVal (hexDigit d) = d := by
  interval_cases d <;> decide

theorem hexDigit_mem (d : Nat) (hd : d < 16) : hexDigit d ∈ "0123456789ABCDEF".toList := by
  interval_cases d <;> decide

theorem hexVal_append_singleton (s : List Char) (c : Char) :
    hexVal (s ++ [c]) = 16 * hexVal s + hexDigitVal c := by
  simp [hexVal, List.foldl_append]

theorem hexFixed_length (n x : Nat) : (hexFixed n x).length = n := by
  induction n generalizing x with
  | zero => rfl
  | succ n ih => simp [hexFixed, ih]

theorem hexVal_hexFixed (n x : Nat) : hexVal (hexFixed n x) = x % 16 ^ n := by
  induction n generalizing x with
  | zero => simp [hexFixed, hexVal, Nat.mod_one]
  | succ n ih =>
    rw [hexFixed, hexVal_append_singleton, ih, hexDigitVal_hexDigit _ (Nat.mod_lt _ (by norm_num)),
      pow_succ, Nat.mul_comm (16 ^ n) 16, Nat.mod_mul]
    omega

theorem hexFixed_mem (n x : Nat) : ∀ c ∈ hexFixed n x, c ∈ "0123456789ABCDEF".toList := by
  induction n generalizing x with
  | zero => simp [hexFixed]
  | succ n ih =>
    intro c hc
    rw [hexFixed, List.mem_append, List.mem_singleton] at hc
    rcases hc with hc | rfl
    · exact ih _ c hc
    · exact hexDigit_mem _ (Nat.mod_lt _ (by norm_num))

theorem hexFixed_zero (n : Nat) : hexFixed n 0 = List.replicate n '0' := by
  induction n with
  | zero => rfl
  | succ n ih =>
    rw [hexFixed, Nat.zero_div, ih, List.replicate_succ']
    rfl

theorem hexDigits_pad (fuel : Nat) : ∀ n x, 1 ≤ n → n ≤ fuel + 1 → x < 16 ^ n →
    (hexDigits fuel x).length ≤ n ∧
      List.replicate (n - (hexDigits fuel x).length) '0' ++ hexDigits fuel x = hexFixed n x := by
  induction fuel with
  | zero =>
    intro n x h1 h2 hx
    have hn : n = 1 := by omega
    subst hn
    simp [hexDigits, hexFixed]
  | succ fuel ih =>
    intro n x h1 h2 hx
    obtain ⟨k, rfl⟩ : ∃ k, n = k + 1 := ⟨n - 1, by omega⟩
    rw [hexDigits]
    split
    · next hlt =>
      refine ⟨by simp, ?_⟩
      rw [hexFixed, Nat.div_eq_of_lt hlt, Nat.mod_eq_of_lt hlt, hexFixed_zero]
      simp
    · next hge =>
      have hk : 1 ≤ k := by
        rcases Nat.eq_zero_or_pos k with rfl | hp
        · simp at hx; omega
        · exact hp
      have hx' : x / 16 < 16 ^ k := by
        rw [Nat.div_lt_iff_lt_mul (by norm_num)]
        rw [pow_succ] at hx
        exact hx
      obtain ⟨hl, he⟩ := ih k (x / 16) hk (by omega) hx'
      refine ⟨by simp; omega, ?_⟩
      rw [hexFixed, ← he, List.length_append, List.length_singleton, Nat.add_sub_add_right,
        List.append_assoc]

theorem fmtHex_eq_hexFixed (n x : Nat) (h1 : 1 ≤ n) (h2 : n ≤ 17) (hx : x < 16 ^ n) :
    fmtHex n x = hexFixed n x := by
  unfold fmtHex
  exact (hexDigits_pad 16 n x h1 h2 hx).2

/-! ## The loops of `print_buffer` -/

theorem loadElem_valid (h : Host) (mem : Mem) (width i data : Nat) (lb : Mem)
    (hw : validWidth h width) :
    loadElem h mem width i data lb =
      if i < MAX_LINE_LENGTH_BYTES / width + 1 then
        .done (load h mem data width, width, store h lb (width * i) width (load h mem data width))
      else .undefined := by
  rcases hw with rfl | rfl | rfl | ⟨rfl, hl⟩ <;>
    simp [loadElem, UI_LEN, UQ_LEN, US_LEN, UC_LEN, MEM_SUPPORT_64BIT_DATA, MAX_LINE_LENGTH_BYTES, *]

theorem elemsSpec_succ (h : Host) (mem : Mem) (width data n : Nat) :
    elemsSpec h mem width data (n + 1) =
      ⟨data, width, ' ' :: fmtHex (width * 2 % UINT_RANGE) (load h mem data width)⟩ ::
        elemsSpec h mem width (data + width) n := by
  unfold elemsSpec
  rw [List.range_succ_eq_map, List.map_cons, List.map_map]
  simp only [Nat.zero_mul, Nat.add_zero, List.cons.injEq, true_and]
  apply List.map_congr_left
  intro k _
  simp only [Function.comp_apply, Nat.succ_mul]
  have : data + (k * width + width) = data + width + k * width := by omega
  rw [this]

theorem elemsSpec_length (h : Host) (mem : Mem) (width data n : Nat) :
    (elemsSpec h mem width data n).length = n := by
  simp [elemsSpec]

theorem elemsSpec_add (h : Host) (mem : Mem) (width data n k : Nat) :
    elemsSpec h mem width data (n + k) =
      elemsSpec h mem width data n ++ elemsSpec h mem width (data + n * width) k := by
  induction n generalizing data with
  | zero => simp [elemsSpec]
  | succ n ih =>
    rw [Nat.succ_add, elemsSpec_succ, elemsSpec_succ, ih, List.cons_append, Nat.succ_mul]
    have : data + width + n * width = data + (n * width + width) := by omega
    rw [this]

theorem elemLoop_spec (h : Host) (mem : Mem) (width : Nat) (hw : validWidth h width) :
    ∀ (n i data : Nat) (lb : Mem) (es : List Elem) (data2 : Nat) (lb2 : Mem),
      elemLoop h mem width n i data lb = .done (es, data2, lb2) →
        es = elemsSpec h mem width data n ∧ data2 = data + n * width ∧
        (n = 0 ∨ i + n ≤ MAX_LINE_LENGTH_BYTES / width + 1) ∧
        ∀ k, readByte lb2 k =
          if width * i ≤ k ∧ k < width * i + width * n then readByte mem (data + (k - width * i))
          else readByte lb k := by
  intro n
  induction n with
  | zero =>
    intro i data lb es data2 lb2 hrun
    simp only [elemLoop, Run.done.injEq, Prod.mk.injEq] at hrun
    obtain ⟨rfl, rfl, rfl⟩ := hrun
    refine ⟨by simp [elemsSpec], by simp, Or.inl rfl, ?_⟩
    intro k
    rw [if_neg (by omega)]
  | succ n ih =>
    intro i data lb es data2 lb2 hrun
    rw [elemLoop, loadElem_valid h mem width i data lb hw] at hrun
    split at hrun
    · next hi =>
      rw [Run.bind_done] at hrun
      obtain ⟨⟨es1, d1, l1⟩, hrec, hres⟩ := Run.bind_eq_done hrun
      simp only [Run.done.injEq, Prod.mk.injEq] at hres
      obtain ⟨rfl, rfl, rfl⟩ := hres
      obtain ⟨he, hd, hb, hbytes⟩ := ih (i + 1) (data + width) _ es1 d1 l1 hrec
      refine ⟨?_, ?_, Or.inr ?_, ?_⟩
      · rw [elemsSpec_succ, he]
      · rw [hd, Nat.succ_mul]; omega
      · rcases hb with rfl | hb <;> omega
      · intro k
        rw [hbytes k, readByte_store_load]
        have e1 : width * (i + 1) = width * i + width := by rw [Nat.mul_succ]
        have e2 : width * (n + 1) = width * n + width := by rw [Nat.mul_succ]
        rw [e1, e2]
        generalize width * i = a
        generalize width * n = b
        by_cases c1 : a + width ≤ k ∧ k < a + width + b
        · rw [if_pos c1, if_pos (by omega)]
          congr 1
          omega
        · rw [if_neg c1]
          by_cases c2 : a ≤ k ∧ k < a + width
          · rw [if_pos c2, if_pos (by omega)]
          · rw [if_neg c2, if_neg (by omega)]
    · simp [Run.bind] at hrun

theorem asciiByte_ne_zero (b : Nat) : asciiByte b ≠ 0 := by
  unfold asciiByte isprint
  split
  · decide
  · next hc =>
    simp at hc
    omega

theorem readByte_asciiStep (lb : Mem) (i k : Nat) :
    readByte
        (if !isprint (readByte lb i) || readByte lb i ≥ 0x80 then writeBytes lb i [46] else lb) k =
      if k = i then asciiByte (readByte lb i) else readByte lb k := by
  by_cases hc : (!isprint (readByte lb i) || decide (readByte lb i ≥ 0x80)) = true
  · rw [if_pos hc, readByte_writeBytes]
    by_cases hk : k = i
    · subst hk
      rw [if_pos (by simp), if_pos rfl]
      unfold asciiByte
      rw [if_pos hc]
      simp
    · rw [if_neg (by simp; omega), if_neg hk]
  · rw [if_neg hc]
    by_cases hk : k = i
    · subst hk
      rw [if_pos rfl]
      unfold asciiByte
      rw [if_neg hc]
    · rw [if_neg hk]

theorem asciiLoop_spec : ∀ (n i : Nat) (lb lb2 : Mem), asciiLoop n i lb = .done lb2 →
    (n = 0 ∨ i + n ≤ UC_LEN) ∧
      ∀ k, readByte lb2 k =
        if i ≤ k ∧ k < i + n then asciiByte (readByte lb k) else readByte lb k := by
  intro n
  induction n with
  | zero =>
    intro i lb lb2 hrun
    simp only [asciiLoop, Run.done.injEq] at hrun
    subst hrun
    refine ⟨Or.inl rfl, fun k => ?_⟩
    rw [if_neg (by omega)]
  | succ n ih =>
    intro i lb lb2 hrun
    rw [asciiLoop] at hrun
    by_cases hi : i < UC_LEN
    · rw [if_pos hi] at hrun
      obtain ⟨hb, hbytes⟩ := ih (i + 1) _ lb2 hrun
      refine ⟨Or.inr (by rcases hb with rfl | hb <;> omega), fun k => ?_⟩
      rw [hbytes k, readByte_asciiStep]
      by_cases c1 : i + 1 ≤ k ∧ k < i + 1 + n
      · rw [if_pos c1, if_neg (show ¬ k = i by omega),
          if_pos (show i ≤ k ∧ k < i + (n + 1) by omega)]
      · rw [if_neg c1]
        by_cases c2 : k = i
        · subst c2
          rw [if_pos rfl, if_pos (show k ≤ k ∧ k < k + (n + 1) by omega)]
        · rw [if_neg c2, if_neg (show ¬ (i ≤ k ∧ k < i + (n + 1)) by omega)]
    · rw [if_neg hi] at hrun
      exact absurd hrun (by simp)

theorem asciiLoop_total : ∀ (n i : Nat) (lb : Mem), i + n ≤ UC_LEN →
    ∃ lb2, asciiLoop n i lb = .done lb2 := by
  intro n
  induction n with
  | zero => exact fun i lb _ => ⟨lb, rfl⟩
  | succ n ih =>
    intro i lb hb
    rw [asciiLoop, if_pos (by omega)]
    exact ih (i + 1) _ (by omega)

theorem cstr_spec (lb : Mem) (n : Nat) (hn : n < UC_LEN) (hnz : ∀ k, k < n → readByte lb k ≠ 0)
    (hz : readByte lb n = 0) :
    cstr lb = (List.range n).map fun k => Char.ofNat (readByte lb k) := by
  unfold cstr
  obtain ⟨m, hm⟩ : ∃ m, UC_LEN = n + (m + 1) := ⟨UC_LEN - n - 1, by omega⟩
  rw [hm, List.range_add, List.map_append, List.range_succ_eq_map, List.map_cons, List.map_cons,
    List.takeWhile_append_of_pos, List.takeWhile_cons_of_neg, List.append_nil, List.map_map]
  · rfl
  · simpa using hz
  · intro b hb
    simp only [List.mem_map, List.mem_range] at hb
    obtain ⟨k, hk, rfl⟩ := hb
    simpa using hnz k hk

theorem ofNat_asciiByte (b : Nat) : Char.ofNat (asciiByte b) = asciiChar b := by
  unfold asciiByte asciiChar isprint
  by_cases hb : 0x20 ≤ b ∧ b ≤ 0x7E
  · rw [if_pos hb, if_neg]
    simp
    omega
  · rw [if_neg hb, if_pos]
    simp
    omega

theorem flatten_bytes_elemsSpec (h : Host) (mem : Mem) (width data n : Nat) :
    ((elemsSpec h mem width data n).map fun e => bytesAt mem e.loadAddr e.loadSize).flatten =
      bytesAt mem data (n * width) := by
  induction n generalizing data with
  | zero => simp [elemsSpec, bytesAt]
  | succ n ih =>
    rw [elemsSpec_succ, List.map_cons, List.flatten_cons, ih, Nat.succ_mul,
      Nat.add_comm (n * width) width, bytesAt_add]

theorem padLoop_snd (width thislinelen : Nat) : ∀ linelen,
    (padLoop width thislinelen linelen).2 = if thislinelen < linelen then thislinelen else linelen := by
  intro linelen
  induction linelen with
  | zero => simp [padLoop]
  | succ l ih =>
    rw [padLoop]
    by_cases c : thislinelen < l + 1
    · rw [if_pos c, if_pos c]
      simp only
      rw [ih]
      split <;> omega
    · rw [if_neg c, if_neg c]

theorem padLoop_fst (width thislinelen : Nat) : ∀ linelen,
    (padLoop width thislinelen linelen).1 =
      (List.replicate (linelen - thislinelen) (padFill width)).flatten := by
  intro linelen
  induction linelen with
  | zero => simp [padLoop]
  | succ l ih =>
    rw [padLoop]
    by_cases c : thislinelen < l + 1
    · rw [if_pos c]
      simp only
      rw [ih, show l + 1 - thislinelen = (l - thislinelen) + 1 by omega, List.replicate_succ,
        List.flatten_cons]
    · rw [if_neg c, show l + 1 - thislinelen = 0 by omega]
      rfl

theorem printLoop_count_zero (h : Host) (mem : Mem) (width fuel addr phyaddr data linelen : Nat)
    (lb : Mem) : printLoop h mem width fuel addr phyaddr data 0 linelen lb = .done [] := by
  cases fuel <;> simp [printLoop]

/-- Inversion of one iteration of the `while (count)` loop. -/
theorem printLoop_done_inv (h : Host) (mem : Mem) (width fuel addr phyaddr data count linelen : Nat)
    (lb : Mem) (lines : List Line)
    (hrun : printLoop h mem width fuel addr phyaddr data count linelen lb = .done lines) :
    (count = 0 ∧ lines = []) ∨
    ∃ fuel1 es data1 lb1 lb2 ls, fuel = fuel1 + 1 ∧ count ≠ 0 ∧
      elemLoop h mem width (if count < linelen then count else linelen) 0 data lb
        = .done (es, data1, lb1) ∧
      asciiLoop ((if count < linelen then count else linelen) * width % UINT_RANGE) 0 lb1
        = .done lb2 ∧
      (if count < linelen then count else linelen) * width % UINT_RANGE < UC_LEN ∧
      printLoop h mem width fuel1
        ((addr + (if count < linelen then count else linelen) * width % UINT_RANGE) % ULONG_RANGE h)
        ((phyaddr + (if count < linelen then count else linelen) * width % UINT_RANGE)
          % ULONG_RANGE h)
        data1 (count - (if count < linelen then count else linelen))
        (padLoop width (if count < linelen then count else linelen) linelen).2
        (writeBytes lb2 ((if count < linelen then count else linelen) * width % UINT_RANGE) [0])
        = .done ls ∧
      lines = ⟨phyaddr, addr, es,
        (padLoop width (if count < linelen then count else linelen) linelen).1,
        cstr (writeBytes lb2
          ((if count < linelen then count else linelen) * width % UINT_RANGE) [0])⟩ :: ls := by
  by_cases hc : count = 0
  · subst hc
    rw [printLoop_count_zero] at hrun
    simp only [Run.done.injEq] at hrun
    exact Or.inl ⟨rfl, hrun.symm⟩
  · right
    cases fuel with
    | zero => simp [printLoop, hc] at hrun
    | succ fuel1 =>
      rw [printLoop, if_neg hc] at hrun
      simp only at hrun
      obtain ⟨⟨es, data1, lb1⟩, he, hrun⟩ := Run.bind_eq_done hrun
      simp only at hrun
      obtain ⟨lb2, ha, hrun⟩ := Run.bind_eq_done hrun
      by_cases hn : (if count < linelen then count else linelen) * width % UINT_RANGE < UC_LEN
      · rw [if_pos hn] at hrun
        obtain ⟨ls, hl, hrun⟩ := Run.bind_eq_done hrun
        simp only [Run.done.injEq] at hrun
        exact ⟨fuel1, es, data1, lb1, lb2, ls, rfl, hc, he, ha, hn, hl, hrun.symm⟩
      · rw [if_neg hn] at hrun
        exact absurd hrun (by simp)

theorem validWidth_bounds {h : Host} {width : Nat} (hw : validWidth h width) :
    1 ≤ width ∧ width ≤ 8 ∧ (MAX_LINE_LENGTH_BYTES / width + 1) * width ≤ 72 := by
  rcases hw with rfl | rfl | rfl | ⟨rfl, _⟩ <;> simp [MAX_LINE_LENGTH_BYTES]

/-- What one iteration of the loop prints in the ASCII column, for a valid width. -/
theorem line_ascii (h : Host) (mem : Mem) (width : Nat) (hw : validWidth h width)
    (t data : Nat) (lb : Mem) (es : List Elem) (data1 : Nat) (lb1 lb2 : Mem)
    (he : elemLoop h mem width t 0 data lb = .done (es, data1, lb1))
    (ha : asciiLoop (t * width % UINT_RANGE) 0 lb1 = .done lb2)
    (hn : t * width % UINT_RANGE < UC_LEN) :
    cstr (writeBytes lb2 (t * width % UINT_RANGE) [0]) = (bytesAt mem data (t * width)).map asciiChar := by
  obtain ⟨_, _, hb, hbytes⟩ := elemLoop_spec h mem width hw t 0 data lb es data1 lb1 he
  obtain ⟨hw1, hw8, hw72⟩ := validWidth_bounds hw
  have ht : t * width ≤ 72 := by
    rcases hb with rfl | hb
    · simp
    · rw [Nat.zero_add] at hb
      exact le_trans (Nat.mul_le_mul_right _ hb) hw72
  have hmod : t * width % UINT_RANGE = t * width :=
    Nat.mod_eq_of_lt (lt_of_le_of_lt ht (by norm_num [UINT_RANGE]))
  rw [hmod] at ha hn ⊢
  obtain ⟨_, habytes⟩ := asciiLoop_spec (t * width) 0 lb1 lb2 ha
  have hread : ∀ k, k < t * width →
      readByte (writeBytes lb2 (t * width) [0]) k = asciiByte (readByte mem (data + k)) := by
    intro k hk
    rw [readByte_writeBytes, if_neg (by simp; omega), habytes k, if_pos (by omega), hbytes k,
      if_pos (by rw [Nat.mul_zero, Nat.mul_comm width t]; omega), Nat.mul_zero, Nat.sub_zero]
  rw [cstr_spec _ (t * width) hn]
  · rw [bytesAt_eq_map, List.map_map]
    apply List.map_congr_left
    intro k hk
    rw [Function.comp_apply, hread k (List.mem_range.mp hk), ofNat_asciiByte]
  · intro k hk
    rw [hread k hk]
    exact asciiByte_ne_zero _
  · rw [readByte_writeBytes, if_pos (by simp)]
    simp

theorem printLoop_elems (h : Host) (mem : Mem) (width : Nat) (hw : validWidth h width) :
    ∀ (fuel addr phyaddr data count linelen : Nat) (lb : Mem) (lines : List Line),
      printLoop h mem width fuel addr phyaddr data count linelen lb = .done lines →
        (lines.map Line.elems).flatten = elemsSpec h mem width data count := by
  intro fuel
  induction fuel with
  | zero =>
    intro addr phyaddr data count linelen lb lines hrun
    rcases printLoop_done_inv _ _ _ _ _ _ _ _ _ _ _ hrun with ⟨rfl, rfl⟩ | ⟨f, _, _, _, _, _, hf, _⟩
    · simp [elemsSpec]
    · omega
  | succ fuel ih =>
    intro addr phyaddr data count linelen lb lines hrun
    rcases printLoop_done_inv _ _ _ _ _ _ _ _ _ _ _ hrun with
      ⟨rfl, rfl⟩ | ⟨f, es, data1, lb1, lb2, ls, hf, hc, he, ha, hn, hrec, rfl⟩
    · simp [elemsSpec]
    · obtain rfl : f = fuel := by omega
      obtain ⟨hes, hd, _, _⟩ := elemLoop_spec h mem width hw _ 0 data lb es data1 lb1 he
      have := ih _ _ _ _ _ _ _ hrec
      rw [List.map_cons, List.flatten_cons, this, hes, hd, ← elemsSpec_add]
      congr 1
      split <;> omega

theorem printLoop_ascii (h : Host) (mem : Mem) (width : Nat) (hw : validWidth h width) :
    ∀ (fuel addr phyaddr data count linelen : Nat) (lb : Mem) (lines : List Line),
      printLoop h mem width fuel addr phyaddr data count linelen lb = .done lines →
        ∀ l ∈ lines, l.ascii = (lineBytes mem l).map asciiChar ∧
          l.ascii.length = l.elems.length * width := by
  intro fuel
  induction fuel with
  | zero =>
    intro addr phyaddr data count linelen lb lines hrun
    rcases printLoop_done_inv _ _ _ _ _ _ _ _ _ _ _ hrun with ⟨rfl, rfl⟩ | ⟨f, _, _, _, _, _, hf, _⟩
    · simp
    · omega
  | succ fuel ih =>
    intro addr phyaddr data count linelen lb lines hrun
    rcases printLoop_done_inv _ _ _ _ _ _ _ _ _ _ _ hrun with
      ⟨rfl, rfl⟩ | ⟨f, es, data1, lb1, lb2, ls, hf, hc, he, ha, hn, hrec, rfl⟩
    · simp
    · obtain rfl : f = fuel := by omega
      intro l hl
      rcases List.mem_cons.mp hl with rfl | hl
      · obtain ⟨hes, _, _, _⟩ := elemLoop_spec h mem width hw _ 0 data lb es data1 lb1 he
        have hasc := line_ascii h mem width hw _ data lb es data1 lb1 lb2 he ha hn
        have hflat : lineBytes mem ⟨phyaddr, addr, es,
            (padLoop width (if count < linelen then count else linelen) linelen).1,
            cstr (writeBytes lb2
              ((if count < linelen then count else linelen) * width % UINT_RANGE) [0])⟩ =
            bytesAt mem data ((if count < linelen then count else linelen) * width) := by
          unfold lineBytes
          simp only
          rw [hes, flatten_bytes_elemsSpec]
        refine ⟨?_, ?_⟩
        · rw [hflat]
          exact hasc
        · simp only
          rw [hasc, List.length_map, bytesAt_length, hes, elemsSpec_length]
      · exact ih _ _ _ _ _ _ _ hrec l hl

theorem printLoop_length (h : Host) (mem : Mem) (width : Nat) :
    ∀ (fuel addr phyaddr data count linelen : Nat) (lb : Mem) (lines : List Line),
      0 < linelen →
      printLoop h mem width fuel addr phyaddr data count linelen lb = .done lines →
        lines.length = (count + linelen - 1) / linelen := by
  intro fuel
  induction fuel with
  | zero =>
    intro addr phyaddr data count linelen lb lines hl hrun
    rcases printLoop_done_inv _ _ _ _ _ _ _ _ _ _ _ hrun with ⟨rfl, rfl⟩ | ⟨f, _, _, _, _, _, hf, _⟩
    · rw [List.length_nil, Nat.zero_add, Nat.div_eq_of_lt (by omega)]
    · omega
  | succ fuel ih =>
    intro addr phyaddr data count linelen lb lines hl hrun
    rcases printLoop_done_inv _ _ _ _ _ _ _ _ _ _ _ hrun with
      ⟨rfl, rfl⟩ | ⟨f, es, data1, lb1, lb2, ls, hf, hc, he, ha, hn, hrec, rfl⟩
    · rw [List.length_nil, Nat.zero_add, Nat.div_eq_of_lt (by omega)]
    · obtain rfl : f = fuel := by omega
      by_cases hlt : count < linelen
      · rw [if_pos hlt] at hrec
        rw [Nat.sub_self, printLoop_count_zero] at hrec
        simp only [Run.done.injEq] at hrec
        subst hrec
        rw [List.length_singleton]
        symm
        apply Nat.div_eq_of_lt_le <;> omega
      · rw [if_neg hlt, padLoop_snd, if_neg (Nat.lt_irrefl _)] at hrec
        have hlen := ih _ _ _ _ _ _ _ hl hrec
        rw [List.length_cons, hlen, show count - linelen + linelen - 1 = count - 1 by omega,
          show count + linelen - 1 = count - 1 + linelen by omega, Nat.add_div_right _ hl]

theorem elemLoop_length (h : Host) (mem : Mem) (width : Nat) :
    ∀ (n i data : Nat) (lb : Mem) (es : List Elem) (data2 : Nat) (lb2 : Mem),
      elemLoop h mem width n i data lb = .done (es, data2, lb2) → es.length = n := by
  intro n
  induction n with
  | zero =>
    intro i data lb es data2 lb2 hrun
    simp only [elemLoop, Run.done.injEq, Prod.mk.injEq] at hrun
    rw [← hrun.1]
    rfl
  | succ n ih =>
    intro i data lb es data2 lb2 hrun
    rw [elemLoop] at hrun
    obtain ⟨⟨x, size, lb1⟩, _, hrun⟩ := Run.bind_eq_done hrun
    obtain ⟨⟨es1, d1, l1⟩, hrec, hres⟩ := Run.bind_eq_done hrun
    simp only [Run.done.injEq, Prod.mk.injEq] at hres
    rw [← hres.1, List.length_cons, ih _ _ _ _ _ _ hrec]

theorem printLoop_full_lines (h : Host) (mem : Mem) (width : Nat) :
    ∀ (fuel addr phyaddr data count linelen : Nat) (lb : Mem) (lines : List Line),
      0 < linelen → linelen ∣ count →
      printLoop h mem width fuel addr phyaddr data count linelen lb = .done lines →
        ∀ l ∈ lines, l.elems.length = linelen := by
  intro fuel
  induction fuel with
  | zero =>
    intro addr phyaddr data count linelen lb lines _ _ hrun
    rcases printLoop_done_inv _ _ _ _ _ _ _ _ _ _ _ hrun with ⟨rfl, rfl⟩ | ⟨f, _, _, _, _, _, hf, _⟩
    · simp
    · omega
  | succ fuel ih =>
    intro addr phyaddr data count linelen lb lines hl hdvd hrun
    rcases printLoop_done_inv _ _ _ _ _ _ _ _ _ _ _ hrun with
      ⟨rfl, rfl⟩ | ⟨f, es, data1, lb1, lb2, ls, hf, hc, he, ha, hn, hrec, rfl⟩
    · simp
    · obtain rfl : f = fuel := by omega
      have hge : ¬ count < linelen := Nat.not_lt.mpr (Nat.le_of_dvd (by omega) hdvd)
      rw [if_neg hge] at he hrec
      rw [padLoop_snd, if_neg (Nat.lt_irrefl _)] at hrec
      intro l hmem
      rcases List.mem_cons.mp hmem with rfl | hmem
      · exact elemLoop_length h mem width _ _ _ _ _ _ _ he
      · exact ih _ _ _ _ _ _ _ hl (Nat.dvd_sub' hdvd (dvd_refl _)) hrec l hmem

theorem loadElem_total (h : Host) (mem : Mem) (width i data : Nat) (lb : Mem)
    (hw : width = 1 ∨ width = 2 ∨ width = 4 ∨ width = 8)
    (hi : i < MAX_LINE_LENGTH_BYTES / width + 1) :
    ∃ r, loadElem h mem width i data lb = .done r := by
  unfold loadElem
  rcases hw with rfl | rfl | rfl | rfl <;>
    simp only [MAX_LINE_LENGTH_BYTES, UI_LEN, UQ_LEN, US_LEN, UC_LEN] at hi ⊢ <;>
    norm_num at hi ⊢
  · rw [if_pos (by omega)]; exact ⟨_, _, _, rfl⟩
  · rw [if_pos (by omega)]; exact ⟨_, _, _, rfl⟩
  · rw [if_pos (by omega)]; exact ⟨_, _, _, rfl⟩
  · by_cases hl : MEM_SUPPORT_64BIT_DATA h = true
    · rw [if_pos hl, if_pos (by omega)]; exact ⟨_, _, _, rfl⟩
    · rw [if_neg hl, if_pos (by omega)]; exact ⟨_, _, _, rfl⟩

theorem elemLoop_total (h : Host) (mem : Mem) (width : Nat)
    (hw : width = 1 ∨ width = 2 ∨ width = 4 ∨ width = 8) :
    ∀ (n i data : Nat) (lb : Mem), i + n ≤ MAX_LINE_LENGTH_BYTES / width + 1 →
      ∃ r, elemLoop h mem width n i data lb = .done r := by
  intro n
  induction n with
  | zero => exact fun i data lb _ => ⟨_, rfl⟩
  | succ n ih =>
    intro i data lb hb
    obtain ⟨⟨x, size, lb1⟩, hload⟩ := loadElem_total h mem width i data lb hw (by omega)
    obtain ⟨⟨es, d2, l2⟩, hrec⟩ := ih (i + 1) (data + width) lb1 (by omega)
    exact ⟨_, by rw [elemLoop, hload, Run.bind_done]; simp only; rw [hrec, Run.bind_done]⟩

theorem printLoop_total (h : Host) (mem : Mem) (width : Nat)
    (hw : width = 1 ∨ width = 2 ∨ width = 4 ∨ width = 8) :
    ∀ (fuel addr phyaddr data count linelen : Nat) (lb : Mem),
      0 < linelen → linelen * width ≤ MAX_LINE_LENGTH_BYTES → count ≤ fuel →
        ∃ lines, printLoop h mem width fuel addr phyaddr data count linelen lb = .done lines := by
  intro fuel
  induction fuel with
  | zero =>
    intro addr phyaddr data count linelen lb _ _ hc
    obtain rfl : count = 0 := by omega
    exact ⟨[], printLoop_count_zero _ _ _ _ _ _ _ _ _⟩
  | succ fuel ih =>
    intro addr phyaddr data count linelen lb hl hlw hc
    by_cases hz : count = 0
    · subst hz
      exact ⟨[], printLoop_count_zero _ _ _ _ _ _ _ _ _⟩
    · have hwpos : 0 < width := by rcases hw with rfl | rfl | rfl | rfl <;> norm_num
      generalize ht : (if count < linelen then count else linelen) = t
      have ht1 : 1 ≤ t := by rw [← ht]; split <;> omega
      have ht2 : t ≤ linelen := by rw [← ht]; split <;> omega
      have ht3 : t ≤ count := by rw [← ht]; split <;> omega
      have htw : t * width ≤ MAX_LINE_LENGTH_BYTES := le_trans (Nat.mul_le_mul_right _ ht2) hlw
      have htd : t ≤ MAX_LINE_LENGTH_BYTES / width := (Nat.le_div_iff_mul_le hwpos).mpr htw
      have hmod : t * width % UINT_RANGE = t * width :=
        Nat.mod_eq_of_lt (lt_of_le_of_lt htw (by norm_num [MAX_LINE_LENGTH_BYTES, UINT_RANGE]))
      obtain ⟨⟨es, data1, lb1⟩, he⟩ := elemLoop_total h mem width hw t 0 data lb (by omega)
      obtain ⟨lb2, ha⟩ := asciiLoop_total (t * width) 0 lb1
        (by simp only [UC_LEN, MAX_LINE_LENGTH_BYTES] at htw ⊢; omega)
      have hp : 0 < (padLoop width t linelen).2 ∧
          (padLoop width t linelen).2 * width ≤ MAX_LINE_LENGTH_BYTES := by
        rw [padLoop_snd]
        split
        · exact ⟨ht1, htw⟩
        · exact ⟨hl, hlw⟩
      obtain ⟨ls, hrec⟩ := ih ((addr + t * width) % ULONG_RANGE h)
        ((phyaddr + t * width) % ULONG_RANGE h) data1 (count - t) (padLoop width t linelen).2
        (writeBytes lb2 (t * width) [0]) hp.1 hp.2 (by omega)
      refine ⟨⟨phyaddr, addr, es, (padLoop width t linelen).1,
        cstr (writeBytes lb2 (t * width) [0])⟩ :: ls, ?_⟩
      rw [printLoop, if_neg hz]
      simp only
      rw [ht, he, Run.bind_done]
      simp only
      rw [hmod, ha, Run.bind_done,
        if_pos (by simp only [UC_LEN, MAX_LINE_LENGTH_BYTES] at htw ⊢; omega), hrec, Run.bind_done]

theorem clampLinelen_of_lt (width linelen : Nat)
    (hw : width = 1 ∨ width = 2 ∨ width = 4 ∨ width = 8)
    (hwrap : linelen * width < UINT_RANGE) :
    ∃ l, clampLinelen width linelen = .done l ∧ 0 < l ∧ l * width ≤ MAX_LINE_LENGTH_BYTES ∧
      l = (if linelen = 0 then DEFAULT_LINE_LENGTH_BYTES / width
        else if linelen * width ≤ MAX_LINE_LENGTH_BYTES then linelen
        else MAX_LINE_LENGTH_BYTES / width) := by
  have hdiv : 0 < MAX_LINE_LENGTH_BYTES / width ∧
      MAX_LINE_LENGTH_BYTES / width * width ≤ MAX_LINE_LENGTH_BYTES ∧
      0 < DEFAULT_LINE_LENGTH_BYTES / width ∧
      DEFAULT_LINE_LENGTH_BYTES / width * width ≤ MAX_LINE_LENGTH_BYTES ∧ width ≠ 0 := by
    rcases hw with rfl | rfl | rfl | rfl <;>
      simp [MAX_LINE_LENGTH_BYTES, DEFAULT_LINE_LENGTH_BYTES]
  unfold clampLinelen
  simp only [Nat.mod_eq_of_lt hwrap]
  by_cases hz : linelen = 0
  · subst hz
    rcases hw with rfl | rfl | rfl | rfl
    · exact ⟨DEFAULT_LINE_LENGTH_BYTES / 1, by decide, by decide, by decide, by decide⟩
    · exact ⟨DEFAULT_LINE_LENGTH_BYTES / 2, by decide, by decide, by decide, by decide⟩
    · exact ⟨DEFAULT_LINE_LENGTH_BYTES / 4, by decide, by decide, by decide, by decide⟩
    · exact ⟨DEFAULT_LINE_LENGTH_BYTES / 8, by decide, by decide, by decide, by decide⟩
  · rw [if_neg hz]
    by_cases hc : linelen * width > MAX_LINE_LENGTH_BYTES
    · rw [if_pos hc, if_neg (show ¬ MAX_LINE_LENGTH_BYTES / width < 1 by omega),
        if_neg (show ¬ linelen * width ≤ MAX_LINE_LENGTH_BYTES by omega)]
      exact ⟨_, rfl, hdiv.1, hdiv.2.1, rfl⟩
    · rw [if_neg hc, if_neg (show ¬ linelen < 1 by omega),
        if_pos (show linelen * width ≤ MAX_LINE_LENGTH_BYTES by omega)]
      exact ⟨_, rfl, by omega, by omega, rfl⟩

theorem print_buffer_total (h : Host) (mem lb0 : Mem)
    (fuel addr phyaddr data width count linelen : Nat)
    (hw : width = 1 ∨ width = 2 ∨ width = 4 ∨ width = 8)
    (hwrap : linelen * width < UINT_RANGE) (hfuel : count ≤ fuel) :
    ∃ lines, print_buffer h mem lb0 fuel addr phyaddr data width count linelen = .done lines := by
  obtain ⟨l, hl, hpos, hle, _⟩ := clampLinelen_of_lt width linelen hw hwrap
  obtain ⟨lines, hrun⟩ := printLoop_total h mem width hw fuel addr phyaddr data count l lb0
    hpos hle hfuel
  exact ⟨lines, by rw [print_buffer, hl, Run.bind_done, hrun]⟩

theorem validWidth_cases {h : Host} {width : Nat} (hw : validWidth h width) :
    width = 1 ∨ width = 2 ∨ width = 4 ∨ width = 8 := by
  rcases hw with h1 | h1 | h1 | ⟨h1, _⟩
  · exact Or.inl h1
  · exact Or.inr (Or.inl h1)
  · exact Or.inr (Or.inr (Or.inl h1))
  · exact Or.inr (Or.inr (Or.inr h1))

/-! ## Window arithmetic -/

theorem land_high_mask (x m : Nat) (hx : x < 2 ^ (12 + m)) :
    x &&& 2 ^ 12 * (2 ^ m - 1) = x - x % 4096 := by
  have hsub : x - x % 4096 = 2 ^ 12 * (x / 2 ^ 12) := by
    have := Nat.div_add_mod x 4096
    norm_num
    omega
  rw [hsub]
  apply Nat.eq_of_testBit_eq
  intro i
  rw [Nat.testBit_land, Nat.testBit_mul_pow_two, Nat.testBit_mul_pow_two,
    Nat.testBit_two_pow_sub_one, ← Nat.shiftRight_eq_div_pow, Nat.testBit_shiftRight]
  by_cases hi : i ≥ 12
  · have e : 12 + (i - 12) = i := by omega
    rw [e]
    by_cases hm : i - 12 < m
    · simp [hi, hm]
    · have : x.testBit i = false := by
        apply Nat.testBit_lt_two_pow
        exact lt_of_lt_of_le hx (Nat.pow_le_pow_right (by norm_num) (by omega))
      simp [this]
  · simp [hi]

theorem windowBase_eq (h : Host) (target : Nat) (ht : target < ULONG_RANGE h) :
    windowBase h target = target - target % 4096 := by
  unfold windowBase
  cases hl : h.lp64
  · have e : ULONG_RANGE h - 1 - MAP_MASK = 2 ^ 12 * (2 ^ 20 - 1) := by
      simp [ULONG_RANGE, ulongBytes, hl, MAP_MASK, MAP_SIZE]
    rw [e]
    apply land_high_mask
    simpa [ULONG_RANGE, ulongBytes, hl] using ht
  · have e : ULONG_RANGE h - 1 - MAP_MASK = 2 ^ 12 * (2 ^ 52 - 1) := by
      simp [ULONG_RANGE, ulongBytes, hl, MAP_MASK, MAP_SIZE]
    rw [e]
    apply land_high_mask
    simpa [ULONG_RANGE, ulongBytes, hl] using ht

theorem land_MAP_MASK (target : Nat) : target &&& MAP_MASK = target % 4096 := by
  have := Nat.and_pow_two_sub_one_eq_mod target 12
  simpa [MAP_MASK, MAP_SIZE] using this

/-- Every completed run of `main` that opened `/dev/mem` starts by opening it and calling
`mmap` on the window base of the target. -/
theorem main_trace_starts (h : Host) (P : Provider) (mem lb0 : Mem) (fuel : Nat) (a : Args)
    (tr : List Event) (code : Nat) (hopen : P.openOk = true)
    (hrun : main h P mem lb0 fuel (some a) = .done (tr, code)) :
    ∃ tl, tr = .openMem :: .printOpened :: .mmap (windowBase h (a.target % ULONG_RANGE h)) :: tl := by
  unfold main at hrun
  simp only [hopen, Bool.true_eq_false, if_false] at hrun
  cases hm : P.mapBase with
  | none =>
    rw [hm] at hrun
    simp only [Run.done.injEq, Prod.mk.injEq] at hrun
    exact ⟨_, hrun.1.symm⟩
  | some map_base =>
    rw [hm] at hrun
    simp only at hrun
    split at hrun
    · obtain ⟨lenth, _, hrun⟩ := Run.bind_eq_done hrun
      obtain ⟨lines, _, hrun⟩ := Run.bind_eq_done hrun
      unfold exitPath at hrun
      split at hrun <;>
        · simp only [Run.done.injEq, Prod.mk.injEq] at hrun
          exact ⟨_, hrun.1.symm⟩
    · split at hrun
      · simp only [Run.done.injEq, Prod.mk.injEq] at hrun
        exact ⟨_, hrun.1.symm⟩
      · split at hrun <;> unfold exitPath at hrun <;> split at hrun <;>
          · simp only [Run.done.injEq, Prod.mk.injEq] at hrun
            exact ⟨_, hrun.1.symm⟩

/-! ## Supporting results for the dump -/

/-- Where the product `linelen * width` does not wrap, `print_buffer` returns and prints
`ceil(count / L)` lines, `L` being the clamped line length, with `L * width ≤ 64`. -/
theorem print_buffer_line_count (h : Host) (mem lb0 : Mem)
    (fuel addr phyaddr data width count linelen : Nat)
    (hw : width = 1 ∨ width = 2 ∨ width = 4 ∨ width = 8)
    (hwrap : linelen * width < UINT_RANGE) (hfuel : count ≤ fuel) :
    ∃ L lines, clampLinelen width linelen = .done L ∧ 0 < L ∧
      L * width ≤ MAX_LINE_LENGTH_BYTES ∧
      print_buffer h mem lb0 fuel addr phyaddr data width count linelen = .done lines ∧
      lines.length = (count + L - 1) / L := by
  obtain ⟨l, hl, hpos, hle, _⟩ := clampLinelen_of_lt width linelen hw hwrap
  obtain ⟨lines, hrun⟩ := printLoop_total h mem width hw fuel addr phyaddr data count l lb0
    hpos hle hfuel
  exact ⟨l, lines, hl, hpos, hle, by rw [print_buffer, hl, Run.bind_done, hrun],
    printLoop_length h mem width fuel addr phyaddr data count l lb0 lines hpos hrun⟩

/-- With the arguments `main` passes by default (64 words of width 4, 4 per line) the dump
has 16 lines of 4 words each, whatever the memory holds. -/
theorem print_buffer_default_lines (h : Host) (mem lb0 : Mem) (addr phyaddr data : Nat) :
    ∃ lines, print_buffer h mem lb0 64 addr phyaddr data 4 64 (DISP_LINE_LEN / 4) = .done lines ∧
      lines.length = 16 ∧ ∀ l ∈ lines, l.elems.length = 4 := by
  obtain ⟨L, lines, hL, _, _, hrun, hlen⟩ := print_buffer_line_count h mem lb0 64 addr phyaddr
    data 4 64 (DISP_LINE_LEN / 4) (by simp) (by decide) (le_refl _)
  have : L = 4 := by
    have : clampLinelen 4 (DISP_LINE_LEN / 4) = .done 4 := by decide
    rw [this] at hL
    simp only [Run.done.injEq] at hL
    exact hL.symm
  subst this
  refine ⟨lines, hrun, hlen, ?_⟩
  have hloop : printLoop h mem 4 64 addr phyaddr data 64 4 lb0 = .done lines := by
    rw [print_buffer, hL, Run.bind_done] at hrun
    exact hrun
  exact printLoop_full_lines h mem 4 64 addr phyaddr data 64 4 lb0 lines (by norm_num)
    (by norm_num) hloop

/-- With a count argument that is not negative as an `int`, `lenth` is clamped to
`1024 - off / 4` words: the dump stays within `4096 - 4 * (off / 4)` bytes, which is the
rest of the page when the offset is a multiple of 4 and up to 3 bytes more otherwise. -/
theorem dumpLenth_clamped (off v : Nat) (hoff : off < MAP_SIZE) (h0 : 0 ≤ toInt32 v)
    (h1 : toInt32 v + 3 ≤ INT_MAX) :
    ∃ lenth, dumpLenth off (some v) = .done lenth ∧ 0 ≤ lenth ∧
      4 * toUInt32 lenth ≤ MAP_SIZE - 4 * (off / 4) := by
  have key : ∀ lenth : Int, 0 ≤ lenth → lenth ≤ 1024 - Int.tdiv (off : Int) 4 →
      4 * toUInt32 lenth ≤ MAP_SIZE - 4 * (off / 4) := by
    intro lenth hl0 hl1
    have hq : Int.tdiv (off : Int) 4 = ((off / 4 : Nat) : Int) := by
      rw [Int.tdiv_eq_ediv (by omega) (by norm_num)]
      rfl
    rw [hq] at hl1
    have hmod : lenth % 2 ^ 32 = lenth := Int.emod_eq_of_lt hl0 (by omega)
    unfold toUInt32
    rw [hmod]
    unfold MAP_SIZE at hoff ⊢
    omega
  have hq0 : Int.tdiv (off : Int) 4 = ((off / 4 : Nat) : Int) := by
    rw [Int.tdiv_eq_ediv (by omega) (by norm_num)]
    rfl
  have hdiv : 0 ≤ Int.tdiv (toInt32 v + 3) 4 * 4 := by
    rw [Int.tdiv_eq_ediv (by omega) (by norm_num)]
    omega
  unfold dumpLenth
  simp only
  rw [if_neg (by omega)]
  split
  · refine ⟨_, rfl, ?_, key _ ?_ (le_refl _)⟩
    · rw [hq0]; unfold MAP_SIZE at hoff; omega
    · rw [hq0]; unfold MAP_SIZE at hoff; omega
  · next hgt => exact ⟨_, rfl, hdiv, key _ hdiv (by omega)⟩

/-- A requested line length above 64 with width 1 is clamped to exactly 64. -/
theorem clampLinelen_width_one (linelen : Nat) (h1 : 64 < linelen) (h2 : linelen < UINT_RANGE) :
    clampLinelen 1 linelen = .done 64 := by
  obtain ⟨l, hl, _, _, he⟩ := clampLinelen_of_lt 1 linelen (Or.inl rfl) (by omega)
  rw [if_neg (by omega), if_neg (by simp [MAX_LINE_LENGTH_BYTES]; omega)] at he
  rw [hl, he]
  rfl

/-- The padding loop prints, for each missing element, `width * 2 + 1` times the output of
`puts(" ")`. -/
theorem padLoop_output (width thislinelen linelen : Nat) (hw : width * 2 + 1 < UINT_RANGE) :
    (padLoop width thislinelen linelen).1 =
      (List.replicate ((linelen - thislinelen) * (width * 2 + 1)) [' ', '\n']).flatten := by
  rw [padLoop_fst]
  unfold padFill
  rw [Nat.mod_eq_of_lt hw]
  induction linelen - thislinelen with
  | zero => simp
  | succ n ih =>
    rw [List.replicate_succ, List.flatten_cons, ih, Nat.succ_mul,
      Nat.add_comm (n * (width * 2 + 1)) (width * 2 + 1),
      List.replicate_add (width * 2 + 1) (n * (width * 2 + 1)), List.flatten_append]

/-! ## The claims -/

/-- C1, which the code breaks: the dump is to stay inside the mapped page,
`4 * lenth ≤ 4096 - (target & 4095)`. Run as `devmem3 0x1FFC d` (no count), `main` leaves
`lenth` at 64 without clamping it: 4 bytes remain in the page from offset `0xFFC`, yet the dump
makes loads worth 256 bytes, the last one at `map_base + 0x10F8`, past the end of the
mapping at `map_base + 0x1000`. -/
theorem main_default_dump_exceeds_page :
    dumpLenth (virtAddr 0x7000 0x1FFC - 0x7000) none = .done 64 ∧
    ¬ (4 * 64 ≤ MAP_SIZE - (0x1FFC &&& MAP_MASK)) ∧
    (main ⟨true, false⟩ ⟨true, some 0x7000, true⟩ (fun _ => 0) (fun _ => 0) 64
        (some ⟨0x1FFC, some ('d', none)⟩)).bind
      (fun r => .done (((dumpLoads r.1).map Prod.snd).sum, (dumpLoads r.1).getLast?)) =
      .done (256, some (0x7000 + 0x10F8, 4)) := by
  decide!

/-- C2, which the code breaks: the effective line length is to satisfy
`linelen * width ≤ 64` for every 32-bit `linelen`. For `linelen = 0x80000000` and `width = 2`
the product wraps to 0 in `uint` arithmetic, the test at line 71 does not fire, and the line
length stays `0x80000000`. -/
theorem clampLinelen_wraps :
    0x80000000 < UINT_RANGE ∧ 0x80000000 * 2 % UINT_RANGE = 0 ∧
    clampLinelen 2 0x80000000 = .done 0x80000000 ∧
    ¬ (0x80000000 * 2 ≤ MAX_LINE_LENGTH_BYTES) := by
  decide

/-- C3, which the code breaks: `print_buffer` is to return with `ceil(count / L)` lines for
every `count > 0`, `linelen > 0`. For `width = 2`, `count = 100`, `linelen = 0x80000000` the
line length is not clamped, the first line takes all 100 elements, and the element loop
indexes `lb.us`, an array of 33, at 33: the run has no defined result. With a clamped
`L = 32` the claim asks for 4 lines. -/
theorem print_buffer_wrapped_linelen_overruns :
    print_buffer ⟨true, false⟩ (fun _ => 0) (fun _ => 0) 100 0x7000 0x1000 0x7000 2 100 0x80000000
      = .undefined ∧
    (elemLoop ⟨true, false⟩ (fun _ => 0) 2 33 0 0x7000 (fun _ => 0)).bind
      (fun r => .done r.1.length) = .done 33 ∧
    (elemLoop ⟨true, false⟩ (fun _ => 0) 2 34 0 0x7000 (fun _ => 0)).bind
      (fun r => .done r.1.length) = .undefined ∧
    (100 + 32 - 1) / 32 = 4 := by
  decide

/-- C4, counterexample: on a host without `__LP64__`, `width = 8` falls to the byte branch
of the element loop, so a line of one element reads the single byte `0x41` and stores it in
`lb.uc[0]`, while the ASCII loop still walks `1 * 8` bytes of `lb`: the strip is `A.......`,
seven of its characters coming from what `lb` held before and not from bytes read. -/
theorem print_buffer_ascii_no64_counterexample :
    print_buffer ⟨false, false⟩ (fun a => a - 0x7000 + 0x41) (fun _ => 0) 1 0x7000 0x1000 0x7000
        8 1 1 =
      .done [⟨0x1000, 0x7000, [⟨0x7000, 1, " 0000000000000041".toList⟩], [],
        "A.......".toList⟩] ∧
    ¬ (∀ l ∈ [(⟨0x1000, 0x7000, [⟨0x7000, 1, " 0000000000000041".toList⟩], [],
          "A.......".toList⟩ : Line)],
        l.ascii.length = l.elems.length * 8 ∧
        l.ascii = (lineBytes (fun a => a - 0x7000 + 0x41) l).map asciiChar) ∧
    (bytesAt (fun a => a - 0x7000 + 0x41) 0x7000 8).map asciiChar = "ABCDEFGH".toList := by
  decide

/-- C4, amended: for `width` 1, 2 or 4, or 8 on a host with `__LP64__`, every line
`print_buffer` renders (full or short) has an ASCII strip of exactly `thisLine * width`
characters, `thisLine` being the number of elements of the line, and its `j`-th character
is the `j`-th byte the line read, in memory order, when that byte is in `0x20..0x7E`, and `.`
otherwise. Such a run returns whenever `linelen * width` does not wrap and the fuel covers
`count`. -/
theorem print_buffer_ascii (h : Host) (mem lb0 : Mem)
    (fuel addr phyaddr data width count linelen : Nat)
    (hw : width = 1 ∨ width = 2 ∨ width = 4 ∨ (width = 8 ∧ h.lp64 = true)) :
    (∀ lines, print_buffer h mem lb0 fuel addr phyaddr data width count linelen = .done lines →
      ∀ l ∈ lines, l.ascii.length = l.elems.length * width ∧
        l.ascii = (lineBytes mem l).map asciiChar ∧
        ∀ j (hj : j < (lineBytes mem l).length), l.ascii[j]? =
          some (if 0x20 ≤ (lineBytes mem l)[j] ∧ (lineBytes mem l)[j] ≤ 0x7E
            then Char.ofNat (lineBytes mem l)[j] else '.')) ∧
    (linelen * width < UINT_RANGE → count ≤ fuel →
      ∃ lines, print_buffer h mem lb0 fuel addr phyaddr data width count linelen = .done lines) := by
  refine ⟨?_, fun hwrap hfuel => print_buffer_total h mem lb0 fuel addr phyaddr data width count
    linelen (validWidth_cases hw) hwrap hfuel⟩
  intro lines hrun l hl
  obtain ⟨L, _, hloop⟩ := Run.bind_eq_done hrun
  obtain ⟨h1, h2⟩ := printLoop_ascii h mem width hw fuel addr phyaddr data count L lb0 lines hloop l hl
  refine ⟨h2, h1, ?_⟩
  intro j hj
  rw [h1, List.getElem?_map, List.getElem?_eq_getElem hj]
  rfl

/-- C4, instance: a short final line of three 4-byte words on a little-endian LP64 host. -/
theorem print_buffer_ascii_witness :
    (4 = 1 ∨ 4 = 2 ∨ 4 = 4 ∨ (4 = 8 ∧ (⟨true, false⟩ : Host).lp64 = true)) ∧
    ∃ lines, print_buffer ⟨true, false⟩ (fun a => a - 0x7000 + 0x41) (fun _ => 0) 3 0x7000 0x1000
        0x7000 4 3 4 = .done lines ∧
      ∀ l ∈ lines, l.ascii.length = l.elems.length * 4 ∧
        l.ascii = (lineBytes (fun a => a - 0x7000 + 0x41) l).map asciiChar :=
  ⟨by decide,
    ((print_buffer_ascii ⟨true, false⟩ (fun a => a - 0x7000 + 0x41) (fun _ => 0) 3 0x7000 0x1000
        0x7000 4 3 4 (by decide)).2 (by decide) (by decide)).elim fun lines hrun =>
      ⟨lines, hrun, fun l hl =>
        ⟨((print_buffer_ascii ⟨true, false⟩ (fun a => a - 0x7000 + 0x41) (fun _ => 0) 3 0x7000
            0x1000 0x7000 4 3 4 (by decide)).1 lines hrun l hl).1,
          ((print_buffer_ascii ⟨true, false⟩ (fun a => a - 0x7000 + 0x41) (fun _ => 0) 3 0x7000
            0x1000 0x7000 4 3 4 (by decide)).1 lines hrun l hl).2.1⟩⟩⟩

/-- C5, which the code breaks: a write of type `w` is to store the low 4 bytes of the value
and read back `v & 0xFFFFFFFF`. On a host with `__LP64__` the access goes through
`unsigned long *`: `devmem3 0x1000 w 0x1DEADBEEF` stores 8 bytes at `virt_addr` and reads
back `0x1DEADBEEF`. -/
theorem main_word_write_lp64 :
    main ⟨true, false⟩ ⟨true, some 0x7000, true⟩ (fun _ => 0) (fun _ => 0) 0
        (some ⟨0x1000, some ('w', some 0x1DEADBEEF)⟩) =
      .done ([.openMem, .printOpened, .mmap 0x1000, .printMapped 0x7000, .load 0x7000 8,
        .printRead 0x1000 0x7000 0, .store 0x7000 [0xEF, 0xBE, 0xAD, 0xDE, 0x01, 0, 0, 0],
        .load 0x7000 8, .printWrite 0x1000 0x7000 0x1DEADBEEF 0x1DEADBEEF,
        .munmap 0x7000, .close], 0) ∧
    0x1DEADBEEF &&& ((1 <<< (8 * 4)) - 1) = 0xDEADBEEF ∧
    (0x1DEADBEEF : Nat) ≠ 0xDEADBEEF := by
  decide

/-- C6, which the code breaks: the mapping is to be released on every exit path. With an
access type that is not recognised (`devmem3 0x1000 z`) `main` maps the page and leaves
through `exit(2)` at line 185: the trace has the `mmap` and no `munmap`. -/
theorem main_illegal_type_skips_munmap :
    main ⟨true, false⟩ ⟨true, some 0x7000, true⟩ (fun _ => 0) (fun _ => 0) 0
        (some ⟨0x1000, some ('z', none)⟩) =
      .done ([.openMem, .printOpened, .mmap 0x1000, .printMapped 0x7000, .illegalType 'z'], 2) ∧
    Event.munmap 0x7000 ∉
      [Event.openMem, .printOpened, .mmap 0x1000, .printMapped 0x7000, .illegalType 'z'] := by
  decide

/-- C7, counterexample: for the access type `z` the run ends with status 2, and its trace
has the call of `mmap` on the page of the target before the report of the illegal type. -/
theorem main_illegal_type_maps_first :
    main ⟨false, false⟩ ⟨true, some 0x40000, true⟩ (fun _ => 0) (fun _ => 0) 0
        (some ⟨0x2345, some ('z', some 7)⟩) =
      .done ([.openMem, .printOpened, .mmap 0x2000, .printMapped 0x40000, .illegalType 'z'], 2) ∧
    Event.mmap 0x2000 ∈
      [Event.openMem, .printOpened, .mmap 0x2000, .printMapped 0x40000, .illegalType 'z'] := by
  decide

/-- C7, amended: for every invocation whose access-type character, lower-cased, is none of
`b`, `h`, `w`, `d`, and in which `/dev/mem` opens and the page maps, `main` reports the
illegal type and exits with status 2; the page of the target has been mapped by then (one
call of `mmap`, on `target & ~MAP_MASK`), and nothing is read, written or unmapped. -/
theorem main_illegal_type (h : Host) (P : Provider) (mem lb0 : Mem) (fuel target : Nat)
    (c : Char) (data : Option Nat) (map_base : Nat)
    (hopen : P.openOk = true) (hmap : P.mapBase = some map_base)
    (hc : c.toLower ≠ 'b' ∧ c.toLower ≠ 'h' ∧ c.toLower ≠ 'w' ∧ c.toLower ≠ 'd') :
    main h P mem lb0 fuel (some ⟨target, some (c, data)⟩) =
      .done ([.openMem, .printOpened, .mmap (windowBase h (target % ULONG_RANGE h)),
        .printMapped map_base, .illegalType c.toLower], 2) := by
  obtain ⟨hb, hh, hw, hd⟩ := hc
  simp [main, hopen, hmap, accessSize, hb, hh, hw, hd]

/-- C7, instance: the access type `Q` on an LP64 host. -/
theorem main_illegal_type_witness :
    main ⟨true, false⟩ ⟨true, some 0x7000, true⟩ (fun _ => 0) (fun _ => 0) 0
        (some ⟨0x1234, some ('Q', none)⟩) =
      .done ([.openMem, .printOpened,
        .mmap (windowBase ⟨true, false⟩ (0x1234 % ULONG_RANGE ⟨true, false⟩)),
        .printMapped 0x7000, .illegalType (Char.toLower 'Q')], 2) :=
  main_illegal_type ⟨true, false⟩ ⟨true, some 0x7000, true⟩ (fun _ => 0) (fun _ => 0) 0 0x1234
    'Q' none 0x7000 rfl rfl (by decide)

/-- C8: for every target address, the offset `main` passes to `mmap` is
`target & ~MAP_MASK`; it is a multiple of 4096 with
`windowBase ≤ target < windowBase + 4096`, and with `virt_addr = map_base + (target & 4095)`
it satisfies `windowBase + (virt_addr - map_base) = target`. In every completed run of `main`
that mapped the page at `map_base`, the call of `mmap` has that offset, every load and every
store of the single access is at `map_base + (target & 4095)`, and a dump starts there and
reads its `k`-th word at `map_base + (target & 4095) + 4 * k`; a run with access type `b`,
`h` or `w` does load (and, given a value, store) at that address, and a run with type `d`
does dump from it. -/
theorem main_window_arith (h : Host) (target map_base : Nat) (ht : target < ULONG_RANGE h) :
    windowBase h target = target &&& (ULONG_RANGE h - 1 - 4095) ∧
    windowBase h target % 4096 = 0 ∧
    windowBase h target ≤ target ∧ target < windowBase h target + 4096 ∧
    virtAddr map_base target = map_base + (target &&& 4095) ∧
    windowBase h target + (virtAddr map_base target - map_base) = target ∧
    ∀ (P : Provider) (mem lb0 : Mem) (fuel : Nat) (rest : Option (Char × Option Nat))
      (tr : List Event) (code : Nat), P.openOk = true → P.mapBase = some map_base →
      main h P mem lb0 fuel (some ⟨target, rest⟩) = .done (tr, code) →
      (∃ tl, tr = .openMem :: .printOpened ::
        .mmap (target &&& (ULONG_RANGE h - 1 - 4095)) :: tl) ∧
      (∀ a size, Event.load a size ∈ tr → a = map_base + (target &&& 4095)) ∧
      (∀ a bytes, Event.store a bytes ∈ tr → a = map_base + (target &&& 4095)) ∧
      (∀ b v lenth lines, Event.dump b v lenth lines ∈ tr →
        b = map_base ∧ v = map_base + (target &&& 4095) ∧
        ∀ k e, (lines.map Line.elems).flatten[k]? = some e →
          e.loadAddr = map_base + (target &&& 4095) + k * 4 ∧ e.loadSize = 4) ∧
      (rest = none → Event.load (map_base + (target &&& 4095)) (ulongBytes h) ∈ tr) ∧
      (∀ c d size, rest = some (c, d) → accessSize h c.toLower = some size →
        Event.load (map_base + (target &&& 4095)) size ∈ tr ∧
        ∀ v, d = some v →
          Event.store (map_base + (target &&& 4095)) (encode h size (v % ULONG_RANGE h)) ∈ tr) ∧
      (∀ c d, rest = some (c, d) → c.toLower = 'd' →
        ∃ lenth lines, Event.dump map_base (map_base + (target &&& 4095)) lenth lines ∈ tr) := by
  have hb := windowBase_eq h target ht
  have hv : virtAddr map_base target = map_base + target % 4096 := by
    rw [virtAddr, land_MAP_MASK]
  refine ⟨rfl, ?_, ?_, ?_, rfl, ?_, ?_⟩
  · rw [hb]; omega
  · rw [hb]; omega
  · rw [hb]; omega
  · rw [hb, hv]; omega
  · intro P mem lb0 fuel rest tr code hopen hmap hrun
    have hstart := main_trace_starts h P mem lb0 fuel ⟨target, rest⟩ tr code hopen hrun
    rw [Nat.mod_eq_of_lt ht] at hstart
    refine ⟨hstart, ?_⟩
    have hexit : ∀ pre : List Event, exitPath P map_base pre = .done (tr, code) →
        ∃ e, tr = pre ++ [.munmap map_base, e] ∧ (e = .close ∨ e = .fatal) := by
      intro pre hex
      unfold exitPath at hex
      split at hex <;> simp only [Run.done.injEq, Prod.mk.injEq] at hex
      · exact ⟨_, hex.1.symm, Or.inl rfl⟩
      · exact ⟨_, hex.1.symm, Or.inr rfl⟩
    have hmask : (4095 : Nat) = MAP_MASK := rfl
    have hva : virtAddr map_base target = map_base + (target &&& 4095) := rfl
    have hw4 : accessSize h 'w' = some (ulongBytes h) := rfl
    have hd4 : accessSize h 'd' = none := rfl
    unfold main at hrun
    simp only [hopen, Bool.true_eq_false, if_false, hmap, Nat.mod_eq_of_lt ht, hva] at hrun
    split at hrun
    · next hd =>
      obtain ⟨lenth, _, hrun⟩ := Run.bind_eq_done hrun
      obtain ⟨lines, hpb, hrun⟩ := Run.bind_eq_done hrun
      obtain ⟨e, rfl, he⟩ := hexit _ hrun
      obtain ⟨L, _, hloop⟩ := Run.bind_eq_done hpb
      have hel := printLoop_elems h mem 4 (Or.inr (Or.inr (Or.inl rfl))) _ _ _ _ _ _ _ _ hloop
      have hrest : ∃ c d, rest = some (c, d) ∧ c.toLower = 'd' := by
        cases rest with
        | none => exact absurd hd (by decide)
        | some p => exact ⟨p.1, p.2, rfl, hd⟩
      obtain ⟨c0, d0, rfl, hc0⟩ := hrest
      refine ⟨?_, ?_, ?_, ?_, ?_, ?_⟩
      · intro a size hmem
        rcases he with rfl | rfl <;> simp at hmem
      · intro a bytes hmem
        rcases he with rfl | rfl <;> simp at hmem
      · intro b v len ls hmem
        have hdump : b = map_base ∧ v = map_base + (target &&& 4095) ∧ len = lenth ∧
            ls = lines := by
          rcases he with rfl | rfl <;> simpa using hmem
        obtain ⟨rfl, rfl, rfl, rfl⟩ := hdump
        refine ⟨rfl, rfl, ?_⟩
        intro k e' hk
        rw [hel] at hk
        unfold elemsSpec at hk
        rw [List.getElem?_map] at hk
        cases hr : (List.range (toUInt32 len))[k]? with
        | none => rw [hr] at hk; simp at hk
        | some j =>
          rw [hr] at hk
          have hj : j = k := by
            have := List.getElem?_eq_some_iff.mp hr
            obtain ⟨hlt, hget⟩ := this
            rw [List.getElem_range] at hget
            exact hget.symm
          subst hj
          simp only [Option.map_some', Option.some.injEq] at hk
          rw [← hk]
          exact ⟨rfl, rfl⟩
      · intro hnone
        exact absurd hnone (by simp)
      · intro c d size hcd hsize
        simp only [Option.some.injEq, Prod.mk.injEq] at hcd
        rw [← hcd.1, hc0, hd4] at hsize
        exact absurd hsize (by simp)
      · intro c d _ _
        exact ⟨lenth, lines, by simp⟩
    · next hd =>
      split at hrun
      · next hnone =>
        simp only [Run.done.injEq, Prod.mk.injEq] at hrun
        obtain ⟨rfl, _⟩ := hrun
        refine ⟨?_, ?_, ?_, ?_, ?_, ?_⟩
        · intro a size hmem
          simp at hmem
        · intro a bytes hmem
          simp at hmem
        · intro b v len ls hmem
          simp at hmem
        · intro hr
          subst hr
          simp only at hnone
          rw [hw4] at hnone
          exact absurd hnone (by simp)
        · intro c d size hcd hsize
          subst hcd
          simp only at hnone
          rw [hsize] at hnone
          exact absurd hnone (by simp)
        · intro c d hcd hc
          subst hcd
          exact absurd hc hd
      · next size hsize =>
        split at hrun
        · next hdata =>
          obtain ⟨e, rfl, he⟩ := hexit _ hrun
          refine ⟨?_, ?_, ?_, ?_, ?_, ?_⟩
          · intro a sz hmem
            rcases he with rfl | rfl <;> simp at hmem <;> exact hmem.1
          · intro a bytes hmem
            rcases he with rfl | rfl <;> simp at hmem
          · intro b v len ls hmem
            rcases he with rfl | rfl <;> simp at hmem
          · intro hr
            subst hr
            simp only at hsize
            rw [hw4] at hsize
            simp only [Option.some.injEq] at hsize
            subst hsize
            simp
          · intro c d sz hcd hsz
            subst hcd
            simp only at hsize
            rw [hsz] at hsize
            simp only [Option.some.injEq] at hsize
            subst hsize
            refine ⟨by simp, ?_⟩
            intro v hv'
            subst hv'
            simp at hdata
          · intro c d hcd hc
            subst hcd
            exact absurd hc hd
        · next v hdata =>
          obtain ⟨e, rfl, he⟩ := hexit _ hrun
          refine ⟨?_, ?_, ?_, ?_, ?_, ?_⟩
          · intro a sz hmem
            rcases he with rfl | rfl <;> simp at hmem <;> exact hmem.1
          · intro a bytes hmem
            rcases he with rfl | rfl <;> simp at hmem <;> exact hmem.1
          · intro b w len ls hmem
            rcases he with rfl | rfl <;> simp at hmem
          · intro hr
            subst hr
            simp at hdata
          · intro c d sz hcd hsz
            subst hcd
            simp only at hsize
            rw [hsz] at hsize
            simp only [Option.some.injEq] at hsize
            subst hsize
            refine ⟨by simp, ?_⟩
            intro v' hv'
            subst hv'
            have hvv : v' = v := by simpa using hdata
            subst hvv
            simp
          · intro c d hcd hc
            subst hcd
            exact absurd hc hd

/-- C8, instance: `devmem3 0x12345ABC h 0xBEEF` on a 32-bit little-endian host with the
page mapped at `0x7000`: the window base is `0x12345000`, and the loads and the store are at
`0x7ABC`. -/
theorem main_window_arith_witness :
    0x12345ABC < ULONG_RANGE ⟨false, false⟩ ∧
    windowBase ⟨false, false⟩ 0x12345ABC % 4096 = 0 ∧
    windowBase ⟨false, false⟩ 0x12345ABC ≤ 0x12345ABC ∧
    0x12345ABC < windowBase ⟨false, false⟩ 0x12345ABC + 4096 ∧
    windowBase ⟨false, false⟩ 0x12345ABC + (virtAddr 0x7000 0x12345ABC - 0x7000) = 0x12345ABC ∧
    main ⟨false, false⟩ ⟨true, some 0x7000, true⟩ (fun _ => 0) (fun _ => 0) 0
        (some ⟨0x12345ABC, some ('h', some 0xBEEF)⟩) =
      .done ([.openMem, .printOpened, .mmap 0x12345000, .printMapped 0x7000, .load 0x7ABC 2,
        .printRead 0x12345ABC 0x7ABC 0, .store 0x7ABC [0xEF, 0xBE], .load 0x7ABC 2,
        .printWrite 0x12345ABC 0x7ABC 0xBEEF 0xBEEF, .munmap 0x7000, .close], 0) ∧
    (Event.load (0x7000 + (0x12345ABC &&& 4095)) 2 ∈
        [Event.openMem, .printOpened, .mmap 0x12345000, .printMapped 0x7000, .load 0x7ABC 2,
          .printRead 0x12345ABC 0x7ABC 0, .store 0x7ABC [0xEF, 0xBE], .load 0x7ABC 2,
          .printWrite 0x12345ABC 0x7ABC 0xBEEF 0xBEEF, .munmap 0x7000, .close] ∧
      ∀ v, some 0xBEEF = some v →
        Event.store (0x7000 + (0x12345ABC &&& 4095))
            (encode ⟨false, false⟩ 2 (v % ULONG_RANGE ⟨false, false⟩)) ∈
          [Event.openMem, .printOpened, .mmap 0x12345000, .printMapped 0x7000, .load 0x7ABC 2,
            .printRead 0x12345ABC 0x7ABC 0, .store 0x7ABC [0xEF, 0xBE], .load 0x7ABC 2,
            .printWrite 0x12345ABC 0x7ABC 0xBEEF 0xBEEF, .munmap 0x7000, .close]) :=
  ⟨by decide,
    (main_window_arith ⟨false, false⟩ 0x12345ABC 0x7000 (by decide)).2.1,
    (main_window_arith ⟨false, false⟩ 0x12345ABC 0x7000 (by decide)).2.2.1,
    (main_window_arith ⟨false, false⟩ 0x12345ABC 0x7000 (by decide)).2.2.2.1,
    (main_window_arith ⟨false, false⟩ 0x12345ABC 0x7000 (by decide)).2.2.2.2.2.1,
    by decide,
    ((main_window_arith ⟨false, false⟩ 0x12345ABC 0x7000 (by decide)).2.2.2.2.2.2
      ⟨true, some 0x7000, true⟩ (fun _ => 0) (fun _ => 0) 0 (some ('h', some 0xBEEF)) _ 0
      rfl rfl (by decide)).2.2.2.2.2.1 'h' (some 0xBEEF) 2 rfl (by decide)⟩

/-- C9, which the code breaks: the hex column of a short final line is to be padded with
`(L - thisLine) * (2 * width + 1)` spaces and no line break. `devmem3 0x1FF4 d 4` dumps 3
words on a line of 4: the padding loop calls `puts(" ")` 9 times, and `puts` ends each
call with a newline, so the padding is 9 spaces each followed by a line break. -/
theorem main_short_line_padding :
    main ⟨true, false⟩ ⟨true, some 0x7000, true⟩ (fun _ => 0) (fun _ => 0) 1
        (some ⟨0x1FF4, some ('d', some 4)⟩) =
      .done ([.openMem, .printOpened, .mmap 0x1000,
        .dump 0x7000 0x7FF4 3 [⟨0x1FF4, 0x7FF4,
          [⟨0x7FF4, 4, " 00000000".toList⟩, ⟨0x7FF8, 4, " 00000000".toList⟩,
            ⟨0x7FFC, 4, " 00000000".toList⟩],
          " \n \n \n \n \n \n \n \n \n".toList, "............".toList⟩],
        .munmap 0x7000, .close], 0) ∧
    " \n \n \n \n \n \n \n \n \n".toList ≠ List.replicate ((4 - 3) * (2 * 4 + 1)) ' ' ∧
    '\n' ∈ " \n \n \n \n \n \n \n \n \n".toList := by
  decide

/-- C10: for `width` 1, 2 or 4, or 8 on a host with `__LP64__`, and every memory content,
the elements of a dump are, in order, one load each of exactly `width` bytes, the `k`-th at
address `data + k * width`, printed as a space followed by exactly `width * 2` upper-case
hexadecimal digits whose value is the loaded `width`-byte unsigned value. Such a run returns
whenever `linelen * width` does not wrap and the fuel covers `count`. -/
theorem print_buffer_elements (h : Host) (mem lb0 : Mem)
    (fuel addr phyaddr data width count linelen : Nat)
    (hw : width = 1 ∨ width = 2 ∨ width = 4 ∨ (width = 8 ∧ h.lp64 = true)) :
    (∀ lines, print_buffer h mem lb0 fuel addr phyaddr data width count linelen = .done lines →
      (lines.map Line.elems).flatten.length = count ∧
      ∀ k, k < count → ∃ digits,
        (lines.map Line.elems).flatten[k]? = some ⟨data + k * width, width, ' ' :: digits⟩ ∧
        digits.length = width * 2 ∧
        (∀ c ∈ digits, c ∈ "0123456789ABCDEF".toList) ∧
        hexVal digits = load h mem (data + k * width) width) ∧
    (linelen * width < UINT_RANGE → count ≤ fuel →
      ∃ lines, print_buffer h mem lb0 fuel addr phyaddr data width count linelen = .done lines) := by
  refine ⟨?_, fun hwrap hfuel => print_buffer_total h mem lb0 fuel addr phyaddr data width count
    linelen (validWidth_cases hw) hwrap hfuel⟩
  intro lines hrun
  obtain ⟨L, _, hloop⟩ := Run.bind_eq_done hrun
  have hel := printLoop_elems h mem width hw fuel addr phyaddr data count L lb0 lines hloop
  rw [hel]
  refine ⟨elemsSpec_length _ _ _ _ _, fun k hk => ?_⟩
  have hfw : width * 2 % UINT_RANGE = width * 2 := by
    rcases hw with rfl | rfl | rfl | ⟨rfl, _⟩ <;> decide
  have hx : load h mem (data + k * width) width < 16 ^ (width * 2) := by
    have := load_lt h mem (data + k * width) width
    rwa [Nat.mul_comm width 2, pow_mul] 
  have hfix : fmtHex (width * 2) (load h mem (data + k * width) width) =
      hexFixed (width * 2) (load h mem (data + k * width) width) := by
    apply fmtHex_eq_hexFixed _ _ _ _ hx <;>
      rcases hw with rfl | rfl | rfl | ⟨rfl, _⟩ <;> decide
  refine ⟨hexFixed (width * 2) (load h mem (data + k * width) width), ?_,
    hexFixed_length _ _, hexFixed_mem _ _, ?_⟩
  · unfold elemsSpec
    rw [List.getElem?_map, List.getElem?_range hk, hfw, Option.map_some', hfix]
  · rw [hexVal_hexFixed, Nat.mod_eq_of_lt hx]

/-- C10, instance: five 4-byte words in lines of four on a little-endian LP64 host. -/
theorem print_buffer_elements_witness :
    (4 = 1 ∨ 4 = 2 ∨ 4 = 4 ∨ (4 = 8 ∧ (⟨true, false⟩ : Host).lp64 = true)) ∧
    ∃ lines, print_buffer ⟨true, false⟩ (fun a => a - 0x7000 + 0x41) (fun _ => 0) 5 0x7000 0x1000
        0x7000 4 5 4 = .done lines ∧
      (lines.map Line.elems).flatten.length = 5 ∧
      ∀ k, k < 5 → ∃ digits,
        (lines.map Line.elems).flatten[k]? = some ⟨0x7000 + k * 4, 4, ' ' :: digits⟩ ∧
        digits.length = 4 * 2 ∧
        (∀ c ∈ digits, c ∈ "0123456789ABCDEF".toList) ∧
        hexVal digits = load ⟨true, false⟩ (fun a => a - 0x7000 + 0x41) (0x7000 + k * 4) 4 :=
  ⟨by decide,
    ((print_buffer_elements ⟨true, false⟩ (fun a => a - 0x7000 + 0x41) (fun _ => 0) 5 0x7000
        0x1000 0x7000 4 5 4 (by decide)).2 (by decide) (by decide)).elim fun lines hrun =>
      ⟨lines, hrun,
        (print_buffer_elements ⟨true, false⟩ (fun a => a - 0x7000 + 0x41) (fun _ => 0) 5 0x7000
          0x1000 0x7000 4 5 4 (by decide)).1 lines hrun⟩⟩

/-! ## Supporting results for the single access -/

/-- In access mode with a data argument, `main` stores the value converted to the type of
the access and reads back the value modulo `256 ^ size`, `size` being 1 for `b`, 2 for `h`
and `sizeof(unsigned long)` for `w`. -/
theorem main_write_readback (h : Host) (P : Provider) (mem lb0 : Mem) (fuel target : Nat)
    (c : Char) (v map_base size : Nat)
    (hopen : P.openOk = true) (hmap : P.mapBase = some map_base) (hunmap : P.munmapOk = true)
    (hs : accessSize h c.toLower = some size) :
    main h P mem lb0 fuel (some ⟨target, some (c, some v)⟩) =
      .done ([.openMem, .printOpened, .mmap (windowBase h (target % ULONG_RANGE h)),
        .printMapped map_base,
        .load (virtAddr map_base (target % ULONG_RANGE h)) size,
        .printRead (target % ULONG_RANGE h) (virtAddr map_base (target % ULONG_RANGE h))
          (load h mem (virtAddr map_base (target % ULONG_RANGE h)) size),
        .store (virtAddr map_base (target % ULONG_RANGE h)) (encode h size (v % ULONG_RANGE h)),
        .load (virtAddr map_base (target % ULONG_RANGE h)) size,
        .printWrite (target % ULONG_RANGE h) (virtAddr map_base (target % ULONG_RANGE h))
          (v % ULONG_RANGE h) (v % ULONG_RANGE h % 256 ^ size),
        .munmap map_base, .close], 0) := by
  have hd : c.toLower ≠ 'd' := by
    intro hd
    rw [hd] at hs
    simp [accessSize] at hs
  simp [main, hopen, hmap, hunmap, hs, hd, exitPath, load_store]

/-- On the paths with a recognised access type (`b`, `h`, `w` or `d`), every completed run
that mapped the page calls `munmap` on it exactly once, as the last or last but one
event. -/
theorem main_releases_mapping (h : Host) (P : Provider) (mem lb0 : Mem) (fuel target : Nat)
    (rest : Option (Char × Option Nat)) (map_base : Nat) (tr : List Event) (code : Nat)
    (hopen : P.openOk = true) (hmap : P.mapBase = some map_base)
    (htype : ∀ c d, rest = some (c, d) →
      c.toLower = 'b' ∨ c.toLower = 'h' ∨ c.toLower = 'w' ∨ c.toLower = 'd')
    (hrun : main h P mem lb0 fuel (some ⟨target, rest⟩) = .done (tr, code)) :
    tr.count (.munmap map_base) = 1 := by
  have hexit : ∀ pre : List Event, pre.count (.munmap map_base) = 0 →
      exitPath P map_base pre = .done (tr, code) → tr.count (.munmap map_base) = 1 := by
    intro pre hpre hex
    unfold exitPath at hex
    split at hex <;>
      · simp only [Run.done.injEq, Prod.mk.injEq] at hex
        rw [← hex.1, List.count_append, hpre]
        simp
  unfold main at hrun
  simp only [hopen, Bool.true_eq_false, if_false, hmap] at hrun
  split at hrun
  · obtain ⟨lenth, _, hrun⟩ := Run.bind_eq_done hrun
    obtain ⟨lines, _, hrun⟩ := Run.bind_eq_done hrun
    exact hexit _ (by simp) hrun
  · next hd =>
    have hsize : ∃ size, accessSize h
        (match rest with
          | some (c, _) => c.toLower
          | none => 'w') = some size := by
      have hb : accessSize h 'b' = some 1 := rfl
      have hh : accessSize h 'h' = some 2 := rfl
      have hw : accessSize h 'w' = some (ulongBytes h) := rfl
      cases rest with
      | none => exact ⟨_, hw⟩
      | some p =>
        obtain ⟨c, d⟩ := p
        simp only at hd ⊢
        rcases htype c d rfl with hc | hc | hc | hc
        · exact ⟨_, by rw [hc]; exact hb⟩
        · exact ⟨_, by rw [hc]; exact hh⟩
        · exact ⟨_, by rw [hc]; exact hw⟩
        · exact absurd hc hd
    obtain ⟨size, hsize⟩ := hsize
    rw [hsize] at hrun
    simp only at hrun
    split at hrun
    · exact hexit _ (by simp) hrun
    · exact hexit _ (by simp) hrun

end Devmem
